import Mathlib

/-!
# Verification of the lexicodec order-preserving codec

A shallow embedding of `src/codec.ts` and `src/compare.ts` from the
`lexicodec` repository: a lexicographically order-preserving codec for
JSON-style values.  JavaScript strings (used both as value payloads and as
encoded byte strings) are modelled as `List Nat` of code units; JavaScript
numbers are modelled as integers, with the external `elen` ordered-number
primitive modelled from its contract in the specification (§6).  Fallible
operations (JavaScript `throw`) are modelled with `Option`.
-/

set_option maxHeartbeats 1600000

namespace Lexicodec

/-- The primitive three-way comparison of `src/compare.ts` (`a > b ? 1 : a < b ? -1 : 0`),
    instantiated at JavaScript numbers that are natural numbers (array lengths). -/
def cmpNat (a b : Nat) : Int :=
  if a < b then -1 else if b < a then 1 else 0

/-- The primitive three-way comparison of `src/compare.ts` instantiated at
    JavaScript numbers (modelled as integers). -/
def cmpInt (a b : Int) : Int :=
  if a < b then -1 else if b < a then 1 else 0

/-- The primitive three-way comparison of `src/compare.ts` instantiated at
    booleans (`false < true` in JavaScript). -/
def cmpBool (a b : Bool) : Int :=
  match a, b with
  | false, true => -1
  | true, false => 1
  | _, _ => 0

/-- The primitive three-way comparison of `src/compare.ts` instantiated at
    JavaScript strings: lexicographic comparison of code-unit sequences
    (JavaScript `<`/`>` on strings).  This is also the byte-wise lexicographic
    comparison used on encoded strings. -/
def cmpStr : List Nat → List Nat → Int
  | [], [] => 0
  | [], _ :: _ => -1
  | _ :: _, [] => 1
  | a :: as, b :: bs => if a < b then -1 else if b < a then 1 else cmpStr as bs

/-- The universe of values handled by the default `jsonCodec`:
    null, booleans, numbers, strings, arrays, plain objects, the `MIN`/`MAX`
    sentinels, and JavaScript `undefined` (which no encoding matches; it can
    appear in the output of `ObjectEncoding.decode` on an odd element count).
    Objects are modelled as entry lists in insertion order. -/
inductive Value where
  | null
  | bool (b : Bool)
  | num (n : Int)
  | str (s : List Nat)
  | arr (elems : List Value)
  | obj (entries : List (List Nat × Value))
  | min
  | max
  | undef
deriving Repr

/-- One key/value entry of an object. -/
abbrev Entry := List Nat × Value

mutual

/-- Structural equality of values (used to provide decidable equality on
    `Value`; the nested inductive prevents automatic derivation). -/
def beqV : Value → Value → Bool
  | .null, .null => true
  | .bool a, .bool b => a == b
  | .num a, .num b => a == b
  | .str a, .str b => a == b
  | .arr a, .arr b => beqL a b
  | .obj a, .obj b => beqE a b
  | .min, .min => true
  | .max, .max => true
  | .undef, .undef => true
  | _, _ => false

/-- Structural equality of value lists. -/
def beqL : List Value → List Value → Bool
  | [], [] => true
  | a :: as, b :: bs => beqV a b && beqL as bs
  | _, _ => false

/-- Structural equality of entry lists. -/
def beqE : List Entry → List Entry → Bool
  | [], [] => true
  | (k1, v1) :: as, (k2, v2) :: bs => k1 == k2 && beqV v1 v2 && beqE as bs
  | _, _ => false

end

theorem beq_sound : ∀ n : Nat,
    (∀ a b : Value, sizeOf a ≤ n → (beqV a b = true ↔ a = b)) ∧
    (∀ as bs : List Value, sizeOf as ≤ n → (beqL as bs = true ↔ as = bs)) ∧
    (∀ es fs : List Entry, sizeOf es ≤ n → (beqE es fs = true ↔ es = fs)) := by
  intro n
  induction n using Nat.strong_induction_on with
  | _ n ih =>
    refine ⟨?_, ?_, ?_⟩
    · intro a b hle
      cases a <;> cases b <;>
        simp only [beqV, beq_iff_eq, reduceCtorEq, iff_false, not_false_eq_true,
          Value.arr.injEq, Value.obj.injEq, Value.bool.injEq, Value.num.injEq,
          Value.str.injEq, iff_true, iff_self]
      case arr.arr as bs =>
        have hs : sizeOf as < n := by
          have : sizeOf (Value.arr as) = 1 + sizeOf as := by simp
          omega
        exact (ih (sizeOf as) hs).2.1 as bs le_rfl
      case obj.obj es fs =>
        have hs : sizeOf es < n := by
          have : sizeOf (Value.obj es) = 1 + sizeOf es := by simp
          omega
        exact (ih (sizeOf es) hs).2.2 es fs le_rfl
    · intro as bs hle
      cases as with
      | nil => cases bs <;> simp [beqL]
      | cons a as =>
        cases bs with
        | nil => simp [beqL]
        | cons b bs =>
          have h0 : sizeOf (a :: as) = 1 + sizeOf a + sizeOf as := by simp
          have h1 := (ih (sizeOf a) (by omega)).1 a b le_rfl
          have h2 := (ih (sizeOf as) (by omega)).2.1 as bs le_rfl
          simp [beqL, h1, h2]
    · intro es fs hle
      cases es with
      | nil => cases fs <;> simp [beqE]
      | cons e es =>
        cases fs with
        | nil => cases e; simp [beqE]
        | cons f fs =>
          obtain ⟨k1, v1⟩ := e
          obtain ⟨k2, v2⟩ := f
          have h0 : sizeOf ((k1, v1) :: es) = 1 + (1 + sizeOf k1 + sizeOf v1) + sizeOf es := by
            simp
          have h1 := (ih (sizeOf v1) (by omega)).1 v1 v2 le_rfl
          have h2 := (ih (sizeOf es) (by omega)).2.2 es fs le_rfl
          simp [beqE, h1, h2, and_assoc]

theorem beqV_iff (a b : Value) : beqV a b = true ↔ a = b :=
  (beq_sound (sizeOf a)).1 a b le_rfl

instance : DecidableEq Value := fun a b => decidable_of_iff _ (beqV_iff a b)

/-- Insert an entry into a key-sorted entry list, keeping it after entries
    with a smaller-or-equal key (the behaviour of the stable
    `Array.prototype.sort` with comparator `([k1], [k2]) => compare(k1, k2)`). -/
def insertByKey (e : Entry) : List Entry → List Entry
  | [] => [e]
  | e0 :: rest =>
      if cmpStr e.1 e0.1 = 1 then e0 :: insertByKey e rest else e :: e0 :: rest

/-- Sorting of object entries by key, as done by
    `Object.entries(value).sort(([k1], [k2]) => compare(k1, k2))`. -/
def sortByKey : List Entry → List Entry
  | [] => []
  | e :: rest => insertByKey e (sortByKey rest)

/-- The `flatten` helper of `src/codec.ts` specialised to the use in
    `ObjectEncoding.encode`: entries `[k, v]` are flattened to the value list
    `[k₀, v₀, k₁, v₁, …]`, the keys becoming string values. -/
def flattenEntries : List Entry → List Value
  | [] => []
  | (k, v) :: rest => .str k :: v :: flattenEntries rest

/-- The `chunk` helper of `src/codec.ts` instantiated at size 2, as used by
    `ObjectEncoding.decode`. -/
def chunk2 {α : Type} : List α → List (List α)
  | [] => []
  | [a] => [[a]]
  | a :: b :: rest => [a, b] :: chunk2 rest

/-- Key of a decoded object entry.  In `ObjectEncoding.decode` the decoded key
    is used as a property name (`obj[key] = value`); the claims only exercise
    string keys, so non-string keys (which JavaScript would stringify) are
    mapped to the empty key. -/
def keyBytes : Value → List Nat
  | .str s => s
  | _ => []

/-- Property assignment `obj[key] = value` on an object represented as an
    entry list: replace the value of an existing key in place, else append. -/
def objAssign : List Entry → List Nat → Value → List Entry
  | [], k, v => [(k, v)]
  | (k0, v0) :: rest, k, v =>
      if k0 = k then (k0, v) :: rest else (k0, v0) :: objAssign rest k v

/-- The entry-rebuilding loop of `ObjectEncoding.decode`:
    `for (const [key, value] of entries) obj[key] = value`, starting from the
    accumulated object.  A one-element chunk `[k]` destructures to
    `key = k, value = undefined`.  (Chunks produced by `chunk2` always have
    one or two elements; the empty case is unreachable.) -/
def buildObjFold : List Entry → List (List Value) → List Entry
  | acc, [] => acc
  | acc, c :: rest =>
      match c with
      | [k, v] => buildObjFold (objAssign acc (keyBytes k) v) rest
      | [k] => buildObjFold (objAssign acc (keyBytes k) .undef) rest
      | _ => buildObjFold acc rest

/-- Property lookup by key in an entry list (first match). -/
def lookupKey (k : List Nat) : List Entry → Option Value
  | [] => none
  | (k0, v) :: rest => if k0 = k then some v else lookupKey k rest

/-- Pairwise distinctness of the keys of an entry list (JavaScript objects
    cannot carry duplicate keys). -/
def nodupKeys : List Entry → Bool
  | [] => true
  | (k, _) :: rest => rest.all (fun e => decide (e.1 ≠ k)) && nodupKeys rest

/-! ## The escape layer of `ArrayEncoding`

`ArrayEncoding.encode` escapes each element encoding with two successive
global replacements, `\x01 → \x01\x01` then `\x00 → \x01\x00`, and appends
the terminator `\x00`.  `ArrayEncoding.decode` scans for the next unescaped
`\x00`, treating `\x01\x01` and `\x01\x00` as atomic pairs, and reverses the
escapes per frame with global replacements `\x01\x01 → \x01` then
`\x01\x00 → \x00`. -/

/-- First encoding pass: `.replace(/\x01/g, "\x01\x01")`. -/
def esc1 : List Nat → List Nat
  | [] => []
  | b :: rest => (if b = 1 then [1, 1] else [b]) ++ esc1 rest

/-- Second encoding pass: `.replace(/\x00/g, "\x01\x00")`. -/
def esc2 : List Nat → List Nat
  | [] => []
  | b :: rest => (if b = 0 then [1, 0] else [b]) ++ esc2 rest

/-- Escaping of one element encoding inside an array body. -/
def escape (s : List Nat) : List Nat := esc2 (esc1 s)

/-- First decoding pass: `.replace(/\x01\x01/g, "\x01")`, replacing
    left-to-right without overlap. -/
def unesc1 : List Nat → List Nat
  | 1 :: 1 :: rest => 1 :: unesc1 rest
  | b :: rest => b :: unesc1 rest
  | [] => []

/-- Second decoding pass: `.replace(/\x01\x00/g, "\x00")`, replacing
    left-to-right without overlap. -/
def unesc2 : List Nat → List Nat
  | 1 :: 0 :: rest => 0 :: unesc2 rest
  | b :: rest => b :: unesc2 rest
  | [] => []

/-- Un-escaping of one sliced frame in `ArrayEncoding.decode`. -/
def unescape (s : List Nat) : List Nat := unesc2 (unesc1 s)

/-- The frame-boundary scan of `ArrayEncoding.decode`: the regular expression
    `/(\x01(\x01|\x00)|\x00)/g` is executed repeatedly; pair matches
    `\x01\x01` and `\x01\x00` are skipped, and the first bare `\x00` ends the
    frame.  Returns the frame content (still escaped) and the remainder after
    the terminator, or `none` when no unescaped terminator exists (the
    remaining bytes are then ignored by the decoder). -/
def splitFrame : List Nat → Option (List Nat × List Nat)
  | [] => none
  | b :: rest =>
      if b = 0 then some ([], rest)
      else if b = 1 then
        match rest with
        | [] => none
        | b2 :: rest2 =>
            if b2 = 0 ∨ b2 = 1 then
              (splitFrame rest2).map (fun p => (b :: b2 :: p.1, p.2))
            else
              (splitFrame (b2 :: rest2)).map (fun p => (b :: p.1, p.2))
      else
        (splitFrame rest).map (fun p => (b :: p.1, p.2))

/-! ## The ordered-number primitive

`NumberEncoding` delegates to the external `elen` package, which is out of
scope of the repository sources.  Modelled from the spec: §6 consumed
contract — `encodeNumber` is injective, total, and order-preserving into
byte strings (`x < y ⇔ encodeNumber(x) < encodeNumber(y)` byte-wise), and
`decodeNumber` is its inverse.  Numbers are modelled as integers; negative
numbers are encoded with a low first byte and an anti-monotone body, so that
byte order equals numeric order. -/

/-- Modelled from the spec: the body `elen` produces for a negative number
    `-(k+1)`; lexicographically decreasing in `k`. -/
def elenNegBody (k : Nat) : List Nat := List.replicate k 0 ++ [1]

/-- Modelled from the spec: the §6 `encodeNumber` contract instantiated for
    integers (injective and order-preserving into byte strings). -/
def elenEncode (n : Int) : List Nat :=
  if n < 0 then 1 :: elenNegBody ((-n).toNat - 1) else 2 :: List.replicate n.toNat 1

/-- Modelled from the spec: the §6 `decodeNumber` contract — the inverse of
    `elenEncode` on its image. -/
def elenDecode : List Nat → Option Int
  | 1 :: rest => some (-(rest.length : Int))
  | 2 :: rest => some (rest.length : Int)
  | _ => none

/-- Code units of `JSON.stringify(true)`. -/
def trueBytes : List Nat := [116, 114, 117, 101]

/-- Code units of `JSON.stringify(false)`. -/
def falseBytes : List Nat := [102, 97, 108, 115, 101]

/-- Body of `BooleanEncoding.encode`. -/
def boolBody (b : Bool) : List Nat := if b then trueBytes else falseBytes

/-- Inverse of `boolBody`: `JSON.parse` restricted to the boolean literals
    produced by `BooleanEncoding.encode`; other bodies fail. -/
def boolParse (s : List Nat) : Option Bool :=
  if s = trueBytes then some true else if s = falseBytes then some false else none

/-! ## Termination measure

`Codec.encode` and `Codec.compare` recurse into object entries only after
sorting them, so structural recursion is unavailable; the measure below is
invariant under permutation of object entries and dominates the flattened
entry list used by `ObjectEncoding.encode`. -/

mutual

/-- Weight of a value (termination measure). -/
def vw : Value → Nat
  | .arr vs => 1 + lw vs
  | .obj es => 1 + ew es
  | _ => 1

/-- Weight of a value list. -/
def lw : List Value → Nat
  | [] => 0
  | v :: vs => 1 + vw v + lw vs

/-- Weight of an entry list. -/
def ew : List Entry → Nat
  | [] => 0
  | e :: es => 4 + vw e.2 + ew es

end

theorem insertByKey_perm (e : Entry) (l : List Entry) :
    List.Perm (insertByKey e l) (e :: l) := by
  induction l with
  | nil => simp [insertByKey]
  | cons e0 rest ih =>
    simp only [insertByKey]
    split
    · exact (List.Perm.cons e0 ih).trans (List.Perm.swap e e0 rest)
    · exact List.Perm.refl _

theorem sortByKey_perm (l : List Entry) : List.Perm (sortByKey l) l := by
  induction l with
  | nil => simp [sortByKey]
  | cons e rest ih =>
    exact (insertByKey_perm e (sortByKey rest)).trans (List.Perm.cons e ih)

theorem ew_perm {l1 l2 : List Entry} (h : List.Perm l1 l2) : ew l1 = ew l2 := by
  induction h with
  | nil => rfl
  | cons x _ ih => simp [ew, ih]
  | swap x y l => simp [ew]; omega
  | trans _ _ ih1 ih2 => omega

theorem ew_sortByKey (l : List Entry) : ew (sortByKey l) = ew l :=
  ew_perm (sortByKey_perm l)

theorem lw_flattenEntries (l : List Entry) : lw (flattenEntries l) ≤ ew l := by
  induction l with
  | nil => simp [flattenEntries, lw, ew]
  | cons e rest ih =>
    obtain ⟨k, v⟩ := e
    simp only [flattenEntries, lw, ew, vw]
    omega

/-! ## The codec operations

`jsonCodec` is the `Codec` constructed from the registry
`{"\x00": MinEncoding, b: NullEncoding, c: ObjectEncoding, d: ArrayEncoding,
e: NumberEncoding, f: StringEncoding, g: BooleanEncoding, "\xff": MaxEncoding}`.
The match predicates of the registered encodings are mutually exclusive on
`Value`, so the first-match iteration of `Codec.encode` reduces to a case
analysis on the variant; no encoding matches `undefined`, where `encode`
throws (`none`). -/

/-- Prefix byte assigned by the `jsonCodec` registry to the encoding that
    matches a value.  (`undef` matches no encoding and never reaches a prefix;
    the value returned for it is irrelevant.) -/
def prefixByte : Value → Nat
  | .min => 0
  | .null => 98
  | .obj _ => 99
  | .arr _ => 100
  | .num _ => 101
  | .str _ => 102
  | .bool _ => 103
  | .max => 255
  | .undef => 0

mutual

/-- `Codec.encode` of the default `jsonCodec`: emit the prefix byte of the
    first matching encoding followed by its body.  `ObjectEncoding.encode`
    sorts the entries by key, flattens them to `[k₀, v₀, k₁, v₁, …]` and
    delegates to `ArrayEncoding.encode`; `ArrayEncoding.encode` escapes each
    recursively encoded element and appends the `0x00` terminator. -/
def encode : Value → Option (List Nat)
  | .min => some [0]
  | .null => some [98]
  | .obj es =>
      match encodeFrames (flattenEntries (sortByKey es)) with
      | none => none
      | some body => some (99 :: body)
  | .arr vs =>
      match encodeFrames vs with
      | none => none
      | some body => some (100 :: body)
  | .num n => some (101 :: elenEncode n)
  | .str s => some (102 :: s)
  | .bool b => some (103 :: boolBody b)
  | .max => some [255]
  | .undef => none
termination_by v => vw v
decreasing_by
all_goals simp only [vw, lw]
all_goals try omega
all_goals rename_i es
all_goals
  have h1 := lw_flattenEntries (sortByKey es)
  have h2 := ew_sortByKey es
  omega

/-- The frame concatenation of `ArrayEncoding.encode`: each element is
    recursively encoded, escaped, and terminated with `0x00`. -/
def encodeFrames : List Value → Option (List Nat)
  | [] => some []
  | v :: vs =>
      match encode v with
      | none => none
      | some e =>
          match encodeFrames vs with
          | none => none
          | some rest => some (escape e ++ 0 :: rest)
termination_by vs => lw vs
decreasing_by
all_goals simp only [lw]
all_goals omega

end

theorem unesc1_length (s : List Nat) : (unesc1 s).length ≤ s.length := by
  induction s using unesc1.induct with
  | case1 rest ih => simp [unesc1]; omega
  | case2 b rest hguard ih => simp [unesc1]; omega
  | case3 => simp [unesc1]

theorem unesc2_length (s : List Nat) : (unesc2 s).length ≤ s.length := by
  induction s using unesc2.induct with
  | case1 rest ih => simp [unesc2]; omega
  | case2 b rest hguard ih => simp [unesc2]; omega
  | case3 => simp [unesc2]

theorem unescape_length (s : List Nat) : (unescape s).length ≤ s.length :=
  le_trans (unesc2_length (unesc1 s)) (unesc1_length s)

theorem splitFrame_length :
    ∀ s f r, splitFrame s = some (f, r) → f.length + r.length < s.length := by
  intro s
  induction s using splitFrame.induct with
  | case1 => intro f r h; simp [splitFrame] at h
  | case2 rest =>
    intro f r h
    rw [splitFrame.eq_def] at h
    simp at h
    obtain ⟨h1, h2⟩ := h
    subst h1; subst h2
    simp
  | case3 =>
    intro f r h
    rw [splitFrame.eq_def] at h
    simp at h
  | case4 b rest hor h10 ih =>
    intro f r h
    rw [splitFrame.eq_def] at h
    simp [hor, Option.map_eq_some'] at h
    obtain ⟨p1, hsf, hf⟩ := h
    subst hf
    have := ih p1 r hsf
    simp
    omega
  | case5 b rest hor h10 ih =>
    intro f r h
    rw [splitFrame.eq_def] at h
    simp [hor, Option.map_eq_some'] at h
    obtain ⟨p1, hsf, hf⟩ := h
    subst hf
    have := ih p1 r hsf
    simp at this ⊢
    omega
  | case6 b rest hb0 hb1 ih =>
    intro f r h
    rw [splitFrame.eq_def] at h
    simp [hb0, hb1, Option.map_eq_some'] at h
    obtain ⟨p1, hsf, hf⟩ := h
    subst hf
    have := ih p1 r hsf
    simp
    omega

mutual

/-- `Codec.decode` of the default `jsonCodec`: the first byte selects the
    registered encoding; an unknown prefix (or the empty string) throws.
    The sentinel and null encodings decode to null ignoring the body;
    `ObjectEncoding.decode` array-decodes the body, chunks the items into
    pairs and rebuilds the object by property assignment. -/
def decode : List Nat → Option Value
  | [] => none
  | p :: rest =>
      if p = 0 then some .null
      else if p = 98 then some .null
      else if p = 99 then
        match decodeItems rest with
        | none => none
        | some items => some (.obj (buildObjFold [] (chunk2 items)))
      else if p = 100 then
        match decodeItems rest with
        | none => none
        | some items => some (.arr items)
      else if p = 101 then
        match elenDecode rest with
        | none => none
        | some n => some (.num n)
      else if p = 102 then some (.str rest)
      else if p = 103 then
        match boolParse rest with
        | none => none
        | some b => some (.bool b)
      else if p = 255 then some .null
      else none
termination_by s => s.length

/-- The frame loop of `ArrayEncoding.decode`: repeatedly scan for the next
    unescaped terminator, un-escape the sliced frame, decode it recursively,
    and stop (ignoring any remaining bytes) when no terminator is left. -/
def decodeItems (s : List Nat) : Option (List Value) :=
  match h : splitFrame s with
  | none => some []
  | some (f, r) =>
      match decode (unescape f) with
      | none => none
      | some v =>
          match decodeItems r with
          | none => none
          | some vs => some (v :: vs)
termination_by s.length
decreasing_by
· have h1 := splitFrame_length s f r h
  have h2 := unescape_length f
  omega
· have h1 := splitFrame_length s f r h
  omega

end

mutual

/-- `Codec.compare` of the default `jsonCodec`.  Referentially identical
    arguments short-circuit to 0 (modelled as structural equality); otherwise
    the matching encodings are found for both sides, differing prefix bytes
    are compared as one-character strings, and equal prefixes delegate to the
    encoding's own comparator with `compare` itself as the recursive
    callback.  A value matching no encoding (undefined) throws. -/
def cmpV (a b : Value) : Option Int :=
  if a = b then some 0
  else
    match a, b with
    | .undef, _ => none
    | _, .undef => none
    | .null, .null => some 0
    | .min, .min => some 0
    | .max, .max => some 0
    | .bool x, .bool y => some (cmpBool x y)
    | .num x, .num y => some (cmpInt x y)
    | .str x, .str y => some (cmpStr x y)
    | .arr x, .arr y => cmpL x y
    | .obj x, .obj y => cmpE (sortByKey x) (sortByKey y)
    | a, b => some (cmpStr [prefixByte a] [prefixByte b])
termination_by vw a
decreasing_by
all_goals simp only [vw, ew_sortByKey]
all_goals omega

/-- `ArrayEncoding.compare`: compare parallel elements through the recursive
    callback, return the first non-zero result, and compare the lengths when
    all parallel elements are equal. -/
def cmpL : List Value → List Value → Option Int
  | a :: as, b :: bs =>
      match cmpV a b with
      | none => none
      | some d => if d ≠ 0 then some d else cmpL as bs
  | as, bs => some (cmpNat as.length bs.length)
termination_by as _ => lw as
decreasing_by
all_goals simp only [lw]
all_goals omega

/-- `ObjectEncoding.compare` after both sides' entries have been sorted by
    key: compare keys with the primitive comparison, then values through the
    recursive callback; first non-zero result wins, else compare the entry
    counts. -/
def cmpE : List Entry → List Entry → Option Int
  | (k1, v1) :: t1, (k2, v2) :: t2 =>
      if cmpStr k1 k2 ≠ 0 then some (cmpStr k1 k2)
      else
        match cmpV v1 v2 with
        | none => none
        | some d => if d ≠ 0 then some d else cmpE t1 t2
  | t1, t2 => some (cmpNat t1.length t2.length)
termination_by t1 _ => ew t1
decreasing_by
all_goals simp only [ew]
all_goals omega

end

/-! ## Well-formed values and the canonical decoded form

`wfB` carves out the values representable under the default `jsonCodec`
excluding the `MIN`/`MAX` sentinels: no `undefined`, no sentinels (at any
depth), and objects with pairwise-distinct keys.  `canon` is the exact value
produced by `decode ∘ encode`: object entries become key-sorted at every
level.  `deepEq` is `assert.deepStrictEqual`'s notion of equality, for which
object entry order is irrelevant. -/

mutual

/-- Membership of a value in the representable universe `V*` of the spec. -/
def wfB : Value → Bool
  | .null => true
  | .bool _ => true
  | .num _ => true
  | .str _ => true
  | .arr vs => wfL vs
  | .obj es => nodupKeys es && wfE es
  | .min => false
  | .max => false
  | .undef => false
termination_by v => vw v
decreasing_by
all_goals simp only [vw]
all_goals omega

/-- All members of a value list are representable. -/
def wfL : List Value → Bool
  | [] => true
  | v :: vs => wfB v && wfL vs
termination_by vs => lw vs
decreasing_by
all_goals simp only [lw]
all_goals omega

/-- All values of an entry list are representable. -/
def wfE : List Entry → Bool
  | [] => true
  | (k, v) :: es => wfB v && wfE es
termination_by es => ew es
decreasing_by
all_goals simp only [ew]
all_goals omega

end

mutual

/-- The canonical form of a value: object entries sorted by key at every
    level.  `decode (encode v)` returns exactly `canon v`. -/
def canon : Value → Value
  | .arr vs => .arr (canonL vs)
  | .obj es => .obj (canonE (sortByKey es))
  | v => v
termination_by v => vw v
decreasing_by
all_goals simp only [vw, ew_sortByKey]
all_goals omega

/-- Canonical form of each member of a value list. -/
def canonL : List Value → List Value
  | [] => []
  | v :: vs => canon v :: canonL vs
termination_by vs => lw vs
decreasing_by
all_goals simp only [lw]
all_goals omega

/-- Canonical form of each value of an entry list. -/
def canonE : List Entry → List Entry
  | [] => []
  | (k, v) :: es => (k, canon v) :: canonE es
termination_by es => ew es
decreasing_by
all_goals simp only [ew]
all_goals omega

end

theorem lookupKey_mem {k : List Nat} {l : List Entry} {v : Value}
    (h : lookupKey k l = some v) : (k, v) ∈ l := by
  induction l with
  | nil => simp [lookupKey] at h
  | cons e rest ih =>
    obtain ⟨k0, v0⟩ := e
    simp only [lookupKey] at h
    split at h
    · rename_i heq
      obtain ⟨rfl⟩ := Option.some.injEq .. ▸ h
      subst heq
      exact List.mem_cons_self _ _
    · exact List.mem_cons_of_mem _ (ih h)

theorem vw_lt_ew_of_mem {k : List Nat} {v : Value} {l : List Entry}
    (h : (k, v) ∈ l) : vw v < ew l := by
  induction l with
  | nil => simp at h
  | cons e rest ih =>
    rcases List.mem_cons.mp h with heq | hmem
    · subst heq; simp only [ew]; omega
    · have := ih hmem
      simp only [ew]
      omega

mutual

/-- Deep structural equality in the sense of `assert.deepStrictEqual`:
    arrays are compared element-wise, objects as finite maps (same number of
    entries and each key of the left side maps to a deep-equal value on the
    right), scalars by value. -/
def deepEq : Value → Value → Bool
  | .arr as, .arr bs => deepEqL as bs
  | .obj aes, .obj bes => (aes.length == bes.length) && deepEqObj aes bes
  | a, b => beqV a b
termination_by a b => vw a + vw b
decreasing_by
all_goals simp only [vw]
all_goals omega

/-- Element-wise deep equality of value lists. -/
def deepEqL : List Value → List Value → Bool
  | [], [] => true
  | a :: as, b :: bs => deepEq a b && deepEqL as bs
  | _, _ => false
termination_by as bs => lw as + lw bs
decreasing_by
all_goals simp only [lw]
all_goals omega

/-- Each entry of the first list maps, by key lookup, to a deep-equal value
    in the second list. -/
def deepEqObj : List Entry → List Entry → Bool
  | [], _ => true
  | (k, v) :: t, bes =>
      (match h : lookupKey k bes with
       | some w => deepEq v w
       | none => false) && deepEqObj t bes
termination_by t bes => ew t + ew bes
decreasing_by
· have := vw_lt_ew_of_mem (lookupKey_mem h)
  simp only [ew]
  omega
· simp only [ew]
  omega

end

/-! ## Properties of the primitive comparison -/

theorem cmpStr_refl (s : List Nat) : cmpStr s s = 0 := by
  induction s with
  | nil => rfl
  | cons a s ih => simp [cmpStr, ih]

theorem cmpStr_eq_zero_iff : ∀ a b : List Nat, cmpStr a b = 0 ↔ a = b := by
  intro a
  induction a with
  | nil => intro b; cases b <;> simp [cmpStr]
  | cons x as ih =>
    intro b
    cases b with
    | nil => simp [cmpStr]
    | cons y bs =>
      simp only [cmpStr]
      rcases Nat.lt_trichotomy x y with h | h | h
      · simp [h]; omega
      · subst h; simp [ih]
      · rw [if_neg (by omega), if_pos h]; simp; omega

theorem cmpStr_swap : ∀ a b : List Nat, cmpStr a b = -cmpStr b a := by
  intro a
  induction a with
  | nil => intro b; cases b <;> simp [cmpStr]
  | cons x as ih =>
    intro b
    cases b with
    | nil => simp [cmpStr]
    | cons y bs =>
      simp only [cmpStr]
      rcases Nat.lt_trichotomy x y with h | h | h
      · rw [if_pos h, if_neg (by omega), if_pos h]
      · subst h; simp [ih]
      · rw [if_neg (by omega), if_pos h, if_pos h]; norm_num

theorem cmpStr_cases (a b : List Nat) :
    cmpStr a b = -1 ∨ cmpStr a b = 0 ∨ cmpStr a b = 1 := by
  induction a generalizing b with
  | nil => cases b <;> simp [cmpStr]
  | cons x as ih =>
    cases b with
    | nil => simp [cmpStr]
    | cons y bs =>
      simp only [cmpStr]
      split
      · simp
      · split
        · simp
        · exact ih bs

theorem cmpStr_cons_same (c : Nat) (x y : List Nat) :
    cmpStr (c :: x) (c :: y) = cmpStr x y := by
  simp [cmpStr]

theorem cmpStr_lt (a b : Nat) (x y : List Nat) (h : a < b) :
    cmpStr (a :: x) (b :: y) = -1 := by
  simp [cmpStr, h]

theorem cmpStr_gt (a b : Nat) (x y : List Nat) (h : b < a) :
    cmpStr (a :: x) (b :: y) = 1 := by
  rw [cmpStr, if_neg (by omega), if_pos h]

theorem cmpStr_append_right (l : List Nat) :
    ∀ c m, cmpStr l (l ++ c :: m) = -1 := by
  induction l with
  | nil => intro c m; simp [cmpStr]
  | cons a l ih => intro c m; simpa [cmpStr] using ih c m

/-! ## Properties of the escape layer -/

/-- Single-pass characterisation of the two-pass escape: the image of one
    input byte. -/
def escByte (b : Nat) : List Nat :=
  if b = 1 then [1, 1] else if b = 0 then [1, 0] else [b]

/-- Single-pass characterisation of the two-pass escape `escape`. -/
def escFlat : List Nat → List Nat
  | [] => []
  | b :: s => escByte b ++ escFlat s

theorem esc2_append (x y : List Nat) : esc2 (x ++ y) = esc2 x ++ esc2 y := by
  induction x with
  | nil => rfl
  | cons b x ih => simp [esc2, ih]

theorem escape_eq_escFlat (s : List Nat) : escape s = escFlat s := by
  induction s with
  | nil => rfl
  | cons b s ih =>
    simp only [escape, esc1, esc2_append] at *
    by_cases h1 : b = 1
    · subst h1; simp [esc2, escFlat, escByte, ih]
    · by_cases h0 : b = 0
      · subst h0; simp [esc2, escFlat, escByte, ih, h1]
      · simp [esc2, escFlat, escByte, ih, h0, h1]

theorem escFlat_append (x y : List Nat) : escFlat (x ++ y) = escFlat x ++ escFlat y := by
  induction x with
  | nil => rfl
  | cons b x ih => simp [escFlat, ih]

/-- Scan deciding that a byte string contains no bare `0x00`: every `0x00`
    occurs as the second byte of a two-byte escape pair `0x01 0x00` (pairs
    read left to right, as the decoder's regular expression does). -/
def bareZeroFree : List Nat → Bool
  | [] => true
  | 0 :: _ => false
  | 1 :: 0 :: rest => bareZeroFree rest
  | 1 :: 1 :: rest => bareZeroFree rest
  | _ :: rest => bareZeroFree rest

theorem splitFrame_cons_zero (rest : List Nat) : splitFrame (0 :: rest) = some ([], rest) := by
  rw [splitFrame.eq_def]
  simp

theorem splitFrame_cons_pair (b : Nat) (rest : List Nat) (h : b = 0 ∨ b = 1) :
    splitFrame (1 :: b :: rest) = (splitFrame rest).map (fun p => (1 :: b :: p.1, p.2)) := by
  rw [splitFrame.eq_def]
  simp [h]

theorem splitFrame_cons_other (b : Nat) (rest : List Nat) (h0 : b ≠ 0) (h1 : b ≠ 1) :
    splitFrame (b :: rest) = (splitFrame rest).map (fun p => (b :: p.1, p.2)) := by
  rw [splitFrame.eq_def]
  simp [h0, h1]

theorem escFlat_one (s : List Nat) : escFlat (1 :: s) = 1 :: 1 :: escFlat s := by
  simp [escFlat, escByte]

theorem escFlat_zero (s : List Nat) : escFlat (0 :: s) = 1 :: 0 :: escFlat s := by
  simp [escFlat, escByte]

theorem escFlat_other (b : Nat) (s : List Nat) (h0 : b ≠ 0) (h1 : b ≠ 1) :
    escFlat (b :: s) = b :: escFlat s := by
  simp [escFlat, escByte, h0, h1]

theorem splitFrame_escFlat (s : List Nat) :
    ∀ rest, splitFrame (escFlat s ++ 0 :: rest) = some (escFlat s, rest) := by
  induction s with
  | nil => intro rest; simp [escFlat, splitFrame_cons_zero]
  | cons b s ih =>
    intro rest
    by_cases h1 : b = 1
    · subst h1
      rw [escFlat_one, List.cons_append, List.cons_append,
        splitFrame_cons_pair 1 _ (Or.inr rfl), ih rest]
      rfl
    · by_cases h0 : b = 0
      · subst h0
        rw [escFlat_zero, List.cons_append, List.cons_append,
          splitFrame_cons_pair 0 _ (Or.inl rfl), ih rest]
        rfl
      · rw [escFlat_other b s h0 h1, List.cons_append,
          splitFrame_cons_other b _ h0 h1, ih rest]
        rfl

theorem bareZeroFree_pair0 (x : List Nat) : bareZeroFree (1 :: 0 :: x) = bareZeroFree x := rfl

theorem bareZeroFree_pair1 (x : List Nat) : bareZeroFree (1 :: 1 :: x) = bareZeroFree x := rfl

theorem bareZeroFree_cons_other (b : Nat) (rest : List Nat) (h0 : b ≠ 0) (h1 : b ≠ 1) :
    bareZeroFree (b :: rest) = bareZeroFree rest := by
  rw [bareZeroFree.eq_def]
  split
  · rename_i heq; simp at heq
  · rename_i heq
    try simp only [List.cons.injEq] at heq
    exact absurd heq.1 h0
  · rename_i heq
    try simp only [List.cons.injEq] at heq
    exact absurd heq.1 h1
  · rename_i heq
    try simp only [List.cons.injEq] at heq
    exact absurd heq.1 h1
  · rename_i heq
    try simp only [List.cons.injEq] at heq
    rw [heq.2]

theorem bareZeroFree_escFlat (s : List Nat) : bareZeroFree (escFlat s) = true := by
  induction s with
  | nil => rfl
  | cons b s ih =>
    by_cases h1 : b = 1
    · subst h1; rw [escFlat_one, bareZeroFree_pair1, ih]
    · by_cases h0 : b = 0
      · subst h0; rw [escFlat_zero, bareZeroFree_pair0, ih]
      · rw [escFlat_other b s h0 h1, bareZeroFree_cons_other b _ h0 h1, ih]

/-- Single-pass characterisation of the intermediate string after the first
    un-escaping pass on an escaped element. -/
def esc0 : List Nat → List Nat
  | [] => []
  | b :: s => (if b = 0 then [1, 0] else [b]) ++ esc0 s

theorem esc0_head_ne_zero (s : List Nat) (b : Nat) (t : List Nat)
    (h : esc0 s = b :: t) : b ≠ 0 := by
  cases s with
  | nil => simp [esc0] at h
  | cons c s =>
    by_cases hc : c = 0
    · subst hc
      simp [esc0] at h
      omega
    · simp [esc0, hc] at h
      omega

theorem unesc1_pair1 (x : List Nat) : unesc1 (1 :: 1 :: x) = 1 :: unesc1 x := rfl

theorem unesc1_cons_other (b : Nat) (rest : List Nat) (hb : b ≠ 1) :
    unesc1 (b :: rest) = b :: unesc1 rest := by
  rw [unesc1.eq_def]
  split
  · rename_i heq; rw [List.cons.injEq] at heq; exact absurd heq.1 hb
  · rename_i heq; rw [List.cons.injEq] at heq; rw [heq.1, heq.2]
  · rename_i heq; simp at heq

theorem unesc1_one_cons (rest : List Nat) (h : ∀ t, rest ≠ 1 :: t) :
    unesc1 (1 :: rest) = 1 :: unesc1 rest := by
  rw [unesc1.eq_def]
  split
  · rename_i heq; rw [List.cons.injEq] at heq; exact absurd heq.2 (h _)
  · rename_i heq; rw [List.cons.injEq] at heq; rw [heq.1, heq.2]
  · rename_i heq; simp at heq

theorem unesc2_pair0 (x : List Nat) : unesc2 (1 :: 0 :: x) = 0 :: unesc2 x := rfl

theorem unesc2_cons_other (b : Nat) (rest : List Nat) (hb : b ≠ 1) :
    unesc2 (b :: rest) = b :: unesc2 rest := by
  rw [unesc2.eq_def]
  split
  · rename_i heq; rw [List.cons.injEq] at heq; exact absurd heq.1 hb
  · rename_i heq; rw [List.cons.injEq] at heq; rw [heq.1, heq.2]
  · rename_i heq; simp at heq

theorem unesc2_one_cons (rest : List Nat) (h : ∀ t, rest ≠ 0 :: t) :
    unesc2 (1 :: rest) = 1 :: unesc2 rest := by
  rw [unesc2.eq_def]
  split
  · rename_i heq; rw [List.cons.injEq] at heq; exact absurd heq.2 (h _)
  · rename_i heq; rw [List.cons.injEq] at heq; rw [heq.1, heq.2]
  · rename_i heq; simp at heq

theorem unesc1_escFlat (s : List Nat) : unesc1 (escFlat s) = esc0 s := by
  induction s with
  | nil => rfl
  | cons b s ih =>
    by_cases h1 : b = 1
    · subst h1
      rw [escFlat_one, unesc1_pair1, ih]
      simp [esc0]
    · by_cases h0 : b = 0
      · subst h0
        rw [escFlat_zero,
          show unesc1 (1 :: 0 :: escFlat s) = 1 :: 0 :: unesc1 (escFlat s) from rfl, ih]
        simp [esc0]
      · rw [escFlat_other b s h0 h1, unesc1_cons_other b _ h1, ih]
        simp [esc0, h0]

theorem unesc2_esc0 (s : List Nat) : unesc2 (esc0 s) = s := by
  induction s with
  | nil => rfl
  | cons b s ih =>
    by_cases h0 : b = 0
    · subst h0
      rw [show esc0 (0 :: s) = 1 :: 0 :: esc0 s from by simp [esc0], unesc2_pair0, ih]
    · by_cases h1 : b = 1
      · subst h1
        rw [show esc0 (1 :: s) = 1 :: esc0 s from by simp [esc0]]
        rw [unesc2_one_cons (esc0 s) (fun t ht => esc0_head_ne_zero s 0 t ht rfl), ih]
      · rw [show esc0 (b :: s) = b :: esc0 s from by simp [esc0, h0], unesc2_cons_other b _ h1, ih]

theorem unescape_escFlat (s : List Nat) : unescape (escFlat s) = s := by
  rw [unescape, unesc1_escFlat, unesc2_esc0]

/-! ## Order preservation of the escape scheme

The heart of the codec: comparing two terminated frames byte-wise agrees
with comparing the unescaped element encodings first and the remainders of
the bodies second. -/

theorem escFlat_nil : escFlat [] = [] := rfl

theorem frame_cmp : ∀ a b ra rb : List Nat,
    cmpStr (escFlat a ++ 0 :: ra) (escFlat b ++ 0 :: rb) =
      if cmpStr a b = 0 then cmpStr ra rb else cmpStr a b := by
  intro a
  induction a with
  | nil =>
    intro b ra rb
    cases b with
    | nil => simp [escFlat, cmpStr_cons_same, cmpStr]
    | cons hb tb =>
      rw [show cmpStr [] (hb :: tb) = -1 from rfl, if_neg (by norm_num)]
      by_cases hb1 : hb = 1
      · subst hb1
        rw [escFlat_nil, List.nil_append, escFlat_one, List.cons_append, List.cons_append]
        exact cmpStr_lt 0 1 _ _ (by omega)
      · by_cases hb0 : hb = 0
        · subst hb0
          rw [escFlat_nil, List.nil_append, escFlat_zero, List.cons_append, List.cons_append]
          exact cmpStr_lt 0 1 _ _ (by omega)
        · rw [escFlat_nil, List.nil_append, escFlat_other hb tb hb0 hb1, List.cons_append]
          exact cmpStr_lt 0 hb _ _ (by omega)
  | cons ha ta ih =>
    intro b ra rb
    cases b with
    | nil =>
      rw [show cmpStr (ha :: ta) [] = 1 from rfl, if_neg (by norm_num)]
      by_cases ha1 : ha = 1
      · subst ha1
        rw [escFlat_nil, List.nil_append, escFlat_one, List.cons_append, List.cons_append]
        exact cmpStr_gt 1 0 _ _ (by omega)
      · by_cases ha0 : ha = 0
        · subst ha0
          rw [escFlat_nil, List.nil_append, escFlat_zero, List.cons_append, List.cons_append]
          exact cmpStr_gt 1 0 _ _ (by omega)
        · rw [escFlat_nil, List.nil_append, escFlat_other ha ta ha0 ha1, List.cons_append]
          exact cmpStr_gt ha 0 _ _ (by omega)
    | cons hb tb =>
      by_cases hab : ha = hb
      · subst hab
        rw [cmpStr_cons_same]
        by_cases ha1 : ha = 1
        · subst ha1
          rw [escFlat_one, escFlat_one]
          simp only [List.cons_append]
          rw [cmpStr_cons_same, cmpStr_cons_same, ih tb ra rb]
        · by_cases ha0 : ha = 0
          · subst ha0
            rw [escFlat_zero, escFlat_zero]
            simp only [List.cons_append]
            rw [cmpStr_cons_same, cmpStr_cons_same, ih tb ra rb]
          · rw [escFlat_other ha ta ha0 ha1, escFlat_other ha tb ha0 ha1]
            simp only [List.cons_append]
            rw [cmpStr_cons_same, ih tb ra rb]
      · have hrhs : cmpStr (ha :: ta) (hb :: tb) =
            if ha < hb then (-1 : Int) else 1 := by
          rcases Nat.lt_trichotomy ha hb with h | h | h
          · rw [cmpStr_lt _ _ _ _ h, if_pos h]
          · exact absurd h hab
          · rw [cmpStr_gt _ _ _ _ h, if_neg (by omega)]
        have hne : cmpStr (ha :: ta) (hb :: tb) ≠ 0 := by
          rw [hrhs]; split <;> norm_num
        rw [if_neg hne, hrhs]
        by_cases ha1 : ha = 1 <;> by_cases hb1 : hb = 1 <;>
          by_cases ha0 : ha = 0 <;> by_cases hb0 : hb = 0
        all_goals try omega
        all_goals
          first
          | (subst ha1; subst hb0
             rw [escFlat_one, escFlat_zero]
             simp only [List.cons_append]
             rw [cmpStr_cons_same, cmpStr_gt 1 0 _ _ (by omega), if_neg (by omega)])
          | (subst ha0; subst hb1
             rw [escFlat_zero, escFlat_one]
             simp only [List.cons_append]
             rw [cmpStr_cons_same, cmpStr_lt 0 1 _ _ (by omega), if_pos (by omega)])
          | (subst ha1
             rw [escFlat_one, escFlat_other hb tb hb0 hb1]
             simp only [List.cons_append]
             rw [cmpStr_lt 1 hb _ _ (by omega), if_pos (by omega)])
          | (subst ha0
             rw [escFlat_zero, escFlat_other hb tb hb0 hb1]
             simp only [List.cons_append]
             rw [cmpStr_lt 1 hb _ _ (by omega), if_pos (by omega)])
          | (subst hb1
             rw [escFlat_other ha ta ha0 ha1, escFlat_one]
             simp only [List.cons_append]
             rw [cmpStr_gt ha 1 _ _ (by omega), if_neg (by omega)])
          | (subst hb0
             rw [escFlat_other ha ta ha0 ha1, escFlat_zero]
             simp only [List.cons_append]
             rw [cmpStr_gt ha 1 _ _ (by omega), if_neg (by omega)])
          | (rw [escFlat_other ha ta ha0 ha1, escFlat_other hb tb hb0 hb1]
             simp only [List.cons_append]
             rcases Nat.lt_trichotomy ha hb with h | h | h
             · rw [cmpStr_lt _ _ _ _ h, if_pos h]
             · exact absurd h hab
             · rw [cmpStr_gt _ _ _ _ h, if_neg (by omega)])

/-! ## The ordered-number primitive satisfies its contract -/

theorem cmpStr_replicate_ones : ∀ m n : Nat,
    cmpStr (List.replicate m 1) (List.replicate n 1) = cmpNat m n := by
  intro m
  induction m with
  | zero =>
    intro n
    cases n with
    | zero => rfl
    | succ k => simp [cmpStr, cmpNat]
  | succ j ih =>
    intro n
    cases n with
    | zero => simp [cmpStr, cmpNat]
    | succ k =>
      simp only [List.replicate_succ, cmpStr_cons_same, ih]
      simp [cmpNat, Nat.succ_lt_succ_iff]

theorem cmpStr_negBody : ∀ j k : Nat, cmpStr (elenNegBody j) (elenNegBody k) = cmpNat k j := by
  intro j
  induction j with
  | zero =>
    intro k
    cases k with
    | zero => rfl
    | succ k' =>
      simp only [elenNegBody, List.replicate_succ, List.replicate_zero, List.nil_append,
        List.cons_append]
      rw [cmpStr_gt 1 0 _ _ (by omega)]
      simp [cmpNat]
  | succ j' ih =>
    intro k
    cases k with
    | zero =>
      simp only [elenNegBody, List.replicate_succ, List.replicate_zero, List.nil_append,
        List.cons_append]
      rw [cmpStr_lt 0 1 _ _ (by omega)]
      simp [cmpNat]
    | succ k' =>
      simp only [elenNegBody, List.replicate_succ, List.cons_append, cmpStr_cons_same]
      have := ih k'
      simp only [elenNegBody] at this
      rw [this]
      simp [cmpNat, Nat.succ_lt_succ_iff]

theorem elen_cmp (m n : Int) : cmpStr (elenEncode m) (elenEncode n) = cmpInt m n := by
  by_cases hm : m < 0 <;> by_cases hn : n < 0 <;>
    simp only [elenEncode, if_pos, if_neg, hm, hn, ite_true, ite_false]
  · rw [cmpStr_cons_same, cmpStr_negBody]
    simp only [cmpNat, cmpInt]
    split_ifs <;> omega
  · rw [cmpStr_lt 1 2 _ _ (by omega)]
    simp only [cmpInt]
    rw [if_pos (by omega)]
  · rw [cmpStr_gt 2 1 _ _ (by omega)]
    simp only [cmpInt]
    rw [if_neg (by omega), if_pos (by omega)]
  · rw [cmpStr_cons_same, cmpStr_replicate_ones]
    simp only [cmpNat, cmpInt]
    split_ifs <;> omega

theorem elen_roundtrip (n : Int) : elenDecode (elenEncode n) = some n := by
  by_cases hn : n < 0
  · simp only [elenEncode, if_pos hn, elenDecode, elenNegBody]
    simp only [List.length_append, List.length_replicate, List.length_cons,
      List.length_nil]
    congr 1
    omega
  · simp only [elenEncode, if_neg hn, elenDecode, List.length_replicate]
    congr 1
    omega

/-! ## Evaluation and inversion lemmas for the codec operations -/

theorem encode_min : encode .min = some [0] := by rw [encode.eq_def]

theorem encode_null : encode .null = some [98] := by rw [encode.eq_def]

theorem encode_bool (b : Bool) : encode (.bool b) = some (103 :: boolBody b) := by
  rw [encode.eq_def]

theorem encode_num (n : Int) : encode (.num n) = some (101 :: elenEncode n) := by
  rw [encode.eq_def]

theorem encode_str (s : List Nat) : encode (.str s) = some (102 :: s) := by
  rw [encode.eq_def]

theorem encode_max : encode .max = some [255] := by rw [encode.eq_def]

theorem encode_undef : encode .undef = none := by rw [encode.eq_def]

theorem encode_arr_some {vs : List Value} {e : List Nat} :
    encode (.arr vs) = some e ↔
      ∃ body, encodeFrames vs = some body ∧ e = 100 :: body := by
  rw [encode.eq_def]
  cases h : encodeFrames vs <;> simp [h, eq_comm]

theorem encode_obj_some {es : List Entry} {e : List Nat} :
    encode (.obj es) = some e ↔
      ∃ body, encodeFrames (flattenEntries (sortByKey es)) = some body ∧ e = 99 :: body := by
  rw [encode.eq_def]
  cases h : encodeFrames (flattenEntries (sortByKey es)) <;> simp [h, eq_comm]

theorem encodeFrames_nil : encodeFrames [] = some [] := by rw [encodeFrames.eq_def]

theorem encodeFrames_cons_some {v : Value} {vs : List Value} {f : List Nat} :
    encodeFrames (v :: vs) = some f ↔
      ∃ e rest, encode v = some e ∧ encodeFrames vs = some rest ∧
        f = escFlat e ++ 0 :: rest := by
  rw [encodeFrames.eq_def]
  cases h1 : encode v <;> cases h2 : encodeFrames vs <;>
    simp [h1, h2, escape_eq_escFlat, eq_comm]

theorem cmpL_nil_left (bs : List Value) : cmpL [] bs = some (cmpNat 0 bs.length) := by
  cases bs <;> (rw [cmpL.eq_def]; rfl)

theorem cmpL_nil_right (as : List Value) : cmpL as [] = some (cmpNat as.length 0) := by
  cases as <;> (rw [cmpL.eq_def]; rfl)

theorem cmpL_cons_cons (a : Value) (as : List Value) (b : Value) (bs : List Value) :
    cmpL (a :: as) (b :: bs) =
      match cmpV a b with
      | none => none
      | some d => if d ≠ 0 then some d else cmpL as bs := by
  rw [cmpL.eq_def]

theorem cmpE_nil_left (t2 : List Entry) : cmpE [] t2 = some (cmpNat 0 t2.length) := by
  cases t2 <;> (rw [cmpE.eq_def]; rfl)

theorem cmpE_cons_nil (e : Entry) (t1 : List Entry) :
    cmpE (e :: t1) [] = some (cmpNat (t1.length + 1) 0) := by
  obtain ⟨k, v⟩ := e
  rw [cmpE.eq_def]
  rfl

theorem cmpE_cons_cons (k1 : List Nat) (v1 : Value) (t1 : List Entry)
    (k2 : List Nat) (v2 : Value) (t2 : List Entry) :
    cmpE ((k1, v1) :: t1) ((k2, v2) :: t2) =
      if cmpStr k1 k2 ≠ 0 then some (cmpStr k1 k2)
      else
        match cmpV v1 v2 with
        | none => none
        | some d => if d ≠ 0 then some d else cmpE t1 t2 := by
  rw [cmpE.eq_def]

theorem cmpV_refl (v : Value) : cmpV v v = some 0 := by
  rw [cmpV.eq_def, if_pos rfl]

theorem cmpV_null : cmpV .null .null = some 0 := cmpV_refl .null

theorem cmpV_bool (x y : Bool) : cmpV (.bool x) (.bool y) = some (cmpBool x y) := by
  by_cases h : x = y
  · subst h; rw [cmpV_refl]; cases x <;> rfl
  · rw [cmpV.eq_def, if_neg (by simp [h])]

theorem cmpV_num (x y : Int) : cmpV (.num x) (.num y) = some (cmpInt x y) := by
  by_cases h : x = y
  · subst h; rw [cmpV_refl]; simp [cmpInt]
  · rw [cmpV.eq_def, if_neg (by simp [h])]

theorem cmpV_str (x y : List Nat) : cmpV (.str x) (.str y) = some (cmpStr x y) := by
  by_cases h : x = y
  · subst h; rw [cmpV_refl, cmpStr_refl]
  · rw [cmpV.eq_def, if_neg (by simp [h])]

theorem cmpV_arr_ne {x y : List Value} (h : x ≠ y) :
    cmpV (.arr x) (.arr y) = cmpL x y := by
  rw [cmpV.eq_def, if_neg (by simp [h])]

theorem cmpV_obj_ne {x y : List Entry} (h : x ≠ y) :
    cmpV (.obj x) (.obj y) = cmpE (sortByKey x) (sortByKey y) := by
  rw [cmpV.eq_def, if_neg (by simp [h])]

theorem cmpV_cross {a b : Value} (ha : a ≠ .undef) (hb : b ≠ .undef)
    (hp : prefixByte a ≠ prefixByte b) :
    cmpV a b = some (cmpStr [prefixByte a] [prefixByte b]) := by
  have hab : a ≠ b := fun h => hp (h ▸ rfl)
  rw [cmpV.eq_def, if_neg hab]
  cases a <;> cases b <;>
    first
    | exact absurd rfl ha
    | exact absurd rfl hb
    | rfl
    | (simp [prefixByte] at hp)

/-! ## Support lemmas for the order-agreement theorem -/

theorem cmpStr_single_ne {a b : Nat} (x y : List Nat) (h : a ≠ b) :
    cmpStr (a :: x) (b :: y) = cmpStr [a] [b] := by
  rcases Nat.lt_trichotomy a b with hh | hh | hh
  · rw [cmpStr_lt _ _ _ _ hh, cmpStr_lt _ _ _ _ hh]
  · exact absurd hh h
  · rw [cmpStr_gt _ _ _ _ hh, cmpStr_gt _ _ _ _ hh]

theorem cmpStr_nil_append_zero (x r : List Nat) : cmpStr [] (x ++ 0 :: r) = -1 := by
  cases x <;> rfl

theorem cmpStr_append_zero_nil (x r : List Nat) : cmpStr (x ++ 0 :: r) [] = 1 := by
  cases x <;> rfl

theorem cmpNat_zero_succ (n : Nat) : cmpNat 0 (n + 1) = -1 := by simp [cmpNat]

theorem cmpNat_succ_zero (n : Nat) : cmpNat (n + 1) 0 = 1 := by simp [cmpNat]

theorem cmpNat_zero_zero : cmpNat 0 0 = 0 := by simp [cmpNat]

theorem wfB_null : wfB .null = true := by rw [wfB.eq_def]

theorem wfB_bool (b : Bool) : wfB (.bool b) = true := by rw [wfB.eq_def]

theorem wfB_num (n : Int) : wfB (.num n) = true := by rw [wfB.eq_def]

theorem wfB_str (s : List Nat) : wfB (.str s) = true := by rw [wfB.eq_def]

theorem wfB_arr (vs : List Value) : wfB (.arr vs) = wfL vs := by rw [wfB.eq_def]

theorem wfB_obj (es : List Entry) : wfB (.obj es) = (nodupKeys es && wfE es) := by
  rw [wfB.eq_def]

theorem wfB_min : wfB .min = false := by rw [wfB.eq_def]

theorem wfB_max : wfB .max = false := by rw [wfB.eq_def]

theorem wfB_undef : wfB .undef = false := by rw [wfB.eq_def]

theorem wfL_nil : wfL [] = true := by rw [wfL.eq_def]

theorem wfL_cons (v : Value) (vs : List Value) : wfL (v :: vs) = (wfB v && wfL vs) := by
  rw [wfL.eq_def]

theorem wfE_nil : wfE [] = true := by rw [wfE.eq_def]

theorem wfE_cons (k : List Nat) (v : Value) (es : List Entry) :
    wfE ((k, v) :: es) = (wfB v && wfE es) := by
  rw [wfE.eq_def]

theorem wfL_mem {vs : List Value} {v : Value} (h : wfL vs = true) (hm : v ∈ vs) :
    wfB v = true := by
  induction vs with
  | nil => simp at hm
  | cons x vs ih =>
    rw [wfL_cons, Bool.and_eq_true] at h
    rcases List.mem_cons.mp hm with rfl | hm
    · exact h.1
    · exact ih h.2 hm

theorem wfE_mem {es : List Entry} {k : List Nat} {v : Value}
    (h : wfE es = true) (hm : (k, v) ∈ es) : wfB v = true := by
  induction es with
  | nil => simp at hm
  | cons e es ih =>
    obtain ⟨k0, v0⟩ := e
    rw [wfE_cons, Bool.and_eq_true] at h
    rcases List.mem_cons.mp hm with heq | hm
    · obtain ⟨rfl, rfl⟩ := Prod.mk.injEq .. ▸ heq
      exact h.1
    · exact ih h.2 hm

theorem vw_lt_of_mem_arr {v : Value} {vs : List Value} (h : v ∈ vs) :
    vw v < vw (.arr vs) := by
  have : vw v < 1 + lw vs := by
    induction vs with
    | nil => simp at h
    | cons x vs ih =>
      rcases List.mem_cons.mp h with rfl | hm
      · simp only [lw]; omega
      · have := ih hm; simp only [lw]; omega
  simpa [vw] using this

theorem vw_lt_of_mem_obj {k : List Nat} {v : Value} {es : List Entry}
    (h : (k, v) ∈ es) : vw v < vw (.obj es) := by
  have h1 := vw_lt_ew_of_mem h
  have h2 : vw (Value.obj es) = 1 + ew es := by simp [vw]
  omega

theorem mem_sortByKey {e : Entry} {l : List Entry} : e ∈ sortByKey l ↔ e ∈ l :=
  (sortByKey_perm l).mem_iff

theorem mem_flattenEntries {x : Value} {l : List Entry} :
    x ∈ flattenEntries l ↔
      (∃ k v, (k, v) ∈ l ∧ x = .str k) ∨ (∃ k, (k, x) ∈ l) := by
  induction l with
  | nil => simp [flattenEntries]
  | cons e l ih =>
    obtain ⟨k0, v0⟩ := e
    simp only [flattenEntries, List.mem_cons, ih]
    constructor
    · rintro (rfl | rfl | h)
      · exact Or.inl ⟨k0, v0, Or.inl rfl, rfl⟩
      · exact Or.inr ⟨k0, Or.inl rfl⟩
      · rcases h with ⟨k, v, hm, rfl⟩ | ⟨k, hm⟩
        · exact Or.inl ⟨k, v, Or.inr hm, rfl⟩
        · exact Or.inr ⟨k, Or.inr hm⟩
    · rintro (⟨k, v, hm | hm, rfl⟩ | ⟨k, hm | hm⟩)
      · obtain ⟨rfl, rfl⟩ := Prod.mk.injEq .. ▸ hm
        exact Or.inl rfl
      · exact Or.inr (Or.inr (Or.inl ⟨k, v, hm, rfl⟩))
      · obtain ⟨rfl, rfl⟩ := Prod.mk.injEq .. ▸ hm
        exact Or.inr (Or.inl rfl)
      · exact Or.inr (Or.inr (Or.inr ⟨k, hm⟩))

theorem encodeFrames_total : ∀ vs : List Value,
    (∀ v ∈ vs, ∃ e, encode v = some e) → ∃ body, encodeFrames vs = some body := by
  intro vs H
  induction vs with
  | nil => exact ⟨[], encodeFrames_nil⟩
  | cons v vs ih =>
    obtain ⟨e, he⟩ := H v (List.mem_cons_self _ _)
    obtain ⟨rest, hrest⟩ := ih (fun x hx => H x (List.mem_cons_of_mem _ hx))
    exact ⟨escFlat e ++ 0 :: rest,
      encodeFrames_cons_some.mpr ⟨e, rest, he, hrest, rfl⟩⟩

theorem encode_total : ∀ (n : Nat) (v : Value), vw v ≤ n → wfB v = true →
    ∃ e, encode v = some e := by
  intro n
  induction n using Nat.strong_induction_on with
  | _ n ih =>
    intro v hle hwf
    cases v with
    | null => exact ⟨_, encode_null⟩
    | bool b => exact ⟨_, encode_bool b⟩
    | num m => exact ⟨_, encode_num m⟩
    | str s => exact ⟨_, encode_str s⟩
    | min => rw [wfB_min] at hwf; simp at hwf
    | max => rw [wfB_max] at hwf; simp at hwf
    | undef => rw [wfB_undef] at hwf; simp at hwf
    | arr vs =>
      rw [wfB_arr] at hwf
      obtain ⟨body, hbody⟩ := encodeFrames_total vs (fun x hx =>
        ih (vw x) (lt_of_lt_of_le (vw_lt_of_mem_arr hx) hle) x le_rfl (wfL_mem hwf hx))
      exact ⟨100 :: body, encode_arr_some.mpr ⟨body, hbody, rfl⟩⟩
    | obj es =>
      rw [wfB_obj, Bool.and_eq_true] at hwf
      have Hx : ∀ x ∈ flattenEntries (sortByKey es), ∃ e, encode x = some e := by
        intro x hx
        rcases mem_flattenEntries.mp hx with ⟨k, v, _, rfl⟩ | ⟨k, hm⟩
        · exact ⟨_, encode_str k⟩
        · have hm' := mem_sortByKey.mp hm
          exact ih (vw x) (lt_of_lt_of_le (vw_lt_of_mem_obj hm') hle) x le_rfl
            (wfE_mem hwf.2 hm')
      obtain ⟨body, hbody⟩ := encodeFrames_total (flattenEntries (sortByKey es)) Hx
      exact ⟨99 :: body, encode_obj_some.mpr ⟨body, hbody, rfl⟩⟩

theorem encode_head : ∀ {v : Value} {e : List Nat},
    encode v = some e → ∃ t, e = prefixByte v :: t := by
  intro v e h
  cases v with
  | null => rw [encode_null] at h; exact ⟨[], by simpa using h.symm⟩
  | bool b => rw [encode_bool] at h; exact ⟨boolBody b, by simpa using h.symm⟩
  | num m => rw [encode_num] at h; exact ⟨elenEncode m, by simpa using h.symm⟩
  | str s => rw [encode_str] at h; exact ⟨s, by simpa using h.symm⟩
  | min => rw [encode_min] at h; exact ⟨[], by simpa using h.symm⟩
  | max => rw [encode_max] at h; exact ⟨[], by simpa using h.symm⟩
  | undef => rw [encode_undef] at h; simp at h
  | arr vs =>
    obtain ⟨body, _, rfl⟩ := encode_arr_some.mp h
    exact ⟨body, rfl⟩
  | obj es =>
    obtain ⟨body, _, rfl⟩ := encode_obj_some.mp h
    exact ⟨body, rfl⟩

theorem cmpL_frames : ∀ (as bs : List Value) (fa fb : List Nat),
    (∀ a ∈ as, ∀ b ∈ bs, ∀ ea eb, encode a = some ea → encode b = some eb →
      cmpV a b = some (cmpStr ea eb)) →
    encodeFrames as = some fa → encodeFrames bs = some fb →
    cmpL as bs = some (cmpStr fa fb) := by
  intro as
  induction as with
  | nil =>
    intro bs fa fb H hfa hfb
    rw [encodeFrames_nil] at hfa
    obtain rfl : fa = [] := by injection hfa with h; exact h.symm
    cases bs with
    | nil =>
      rw [encodeFrames_nil] at hfb
      obtain rfl : fb = [] := by injection hfb with h; exact h.symm
      rw [cmpL_nil_left]
      simp [cmpNat, cmpStr]
    | cons b bs' =>
      obtain ⟨eb, rest, _, _, rfl⟩ := encodeFrames_cons_some.mp hfb
      rw [cmpL_nil_left, cmpStr_nil_append_zero]
      simp [cmpNat]
  | cons a as' ih =>
    intro bs fa fb H hfa hfb
    obtain ⟨ea, ra, hea, hra, rfl⟩ := encodeFrames_cons_some.mp hfa
    cases bs with
    | nil =>
      rw [encodeFrames_nil] at hfb
      obtain rfl : fb = [] := by injection hfb with h; exact h.symm
      rw [cmpL_nil_right, cmpStr_append_zero_nil]
      simp [cmpNat]
    | cons b bs' =>
      obtain ⟨eb, rb, heb, hrb, rfl⟩ := encodeFrames_cons_some.mp hfb
      have hab := H a (List.mem_cons_self _ _) b (List.mem_cons_self _ _) ea eb hea heb
      rw [cmpL_cons_cons, hab, frame_cmp]
      by_cases hd : cmpStr ea eb = 0
      · rw [if_pos hd]
        simp only [hd, ne_eq, not_true_eq_false, ite_false, if_neg]
        exact ih bs' ra rb
          (fun x hx y hy => H x (List.mem_cons_of_mem _ hx) y (List.mem_cons_of_mem _ hy))
          hra hrb
      · rw [if_neg hd]
        simp [hd]

theorem cmpE_frames : ∀ (l1 l2 : List Entry) (f1 f2 : List Nat),
    (∀ e1 ∈ l1, ∀ e2 ∈ l2, ∀ x y, encode e1.2 = some x → encode e2.2 = some y →
      cmpV e1.2 e2.2 = some (cmpStr x y)) →
    encodeFrames (flattenEntries l1) = some f1 →
    encodeFrames (flattenEntries l2) = some f2 →
    cmpE l1 l2 = some (cmpStr f1 f2) := by
  intro l1
  induction l1 with
  | nil =>
    intro l2 f1 f2 H hf1 hf2
    rw [show flattenEntries [] = [] from rfl, encodeFrames_nil] at hf1
    obtain rfl : f1 = [] := by injection hf1 with h; exact h.symm
    cases l2 with
    | nil =>
      rw [show flattenEntries [] = [] from rfl, encodeFrames_nil] at hf2
      obtain rfl : f2 = [] := by injection hf2 with h; exact h.symm
      rw [cmpE_nil_left]
      simp [cmpNat, cmpStr]
    | cons e2 t2 =>
      obtain ⟨k2, v2⟩ := e2
      rw [show flattenEntries ((k2, v2) :: t2) = .str k2 :: v2 :: flattenEntries t2
        from rfl] at hf2
      obtain ⟨ek, rest, _, _, rfl⟩ := encodeFrames_cons_some.mp hf2
      rw [cmpE_nil_left, cmpStr_nil_append_zero]
      simp [cmpNat]
  | cons e1 t1 ih =>
    intro l2 f1 f2 H hf1 hf2
    obtain ⟨k1, v1⟩ := e1
    rw [show flattenEntries ((k1, v1) :: t1) = .str k1 :: v1 :: flattenEntries t1
      from rfl] at hf1
    obtain ⟨ek1, r1, hek1, hr1, rfl⟩ := encodeFrames_cons_some.mp hf1
    obtain ⟨e1, r1', he1, hr1', rfl⟩ := encodeFrames_cons_some.mp hr1
    cases l2 with
    | nil =>
      rw [show flattenEntries [] = [] from rfl, encodeFrames_nil] at hf2
      obtain rfl : f2 = [] := by injection hf2 with h; exact h.symm
      rw [cmpE_cons_nil, cmpStr_append_zero_nil]
      simp [cmpNat]
    | cons e2 t2 =>
      obtain ⟨k2, v2⟩ := e2
      rw [show flattenEntries ((k2, v2) :: t2) = .str k2 :: v2 :: flattenEntries t2
        from rfl] at hf2
      obtain ⟨ek2, r2, hek2, hr2, rfl⟩ := encodeFrames_cons_some.mp hf2
      obtain ⟨e2', r2', he2, hr2', rfl⟩ := encodeFrames_cons_some.mp hr2
      rw [encode_str] at hek1 hek2
      obtain rfl : ek1 = 102 :: k1 := by injection hek1 with h; exact h.symm
      obtain rfl : ek2 = 102 :: k2 := by injection hek2 with h; exact h.symm
      rw [cmpE_cons_cons, frame_cmp, cmpStr_cons_same]
      by_cases hk : cmpStr k1 k2 = 0
      · rw [if_pos hk, if_neg (by simp [hk]), frame_cmp]
        have hval := H (k1, v1) (List.mem_cons_self _ _) (k2, v2) (List.mem_cons_self _ _)
          e1 e2' he1 he2
        rw [hval]
        by_cases hv : cmpStr e1 e2' = 0
        · rw [if_pos hv]
          simp only [hv, ne_eq, not_true_eq_false, ite_false, if_neg]
          exact ih t2 r1' r2'
            (fun x hx y hy => H x (List.mem_cons_of_mem _ hx) y (List.mem_cons_of_mem _ hy))
            hr1' hr2'
        · rw [if_neg hv]
          simp [hv]
      · rw [if_neg hk, if_pos (by simp [hk])]

/-! ## The order-agreement theorem

`Codec.compare` agrees with the sign of the byte-wise lexicographic
comparison of the encodings, for all representable values. -/

theorem cross_helper {a b : Value} {ta tb : List Nat} (ha : a ≠ .undef)
    (hb : b ≠ .undef) (hp : prefixByte a ≠ prefixByte b) :
    cmpV a b = some (cmpStr (prefixByte a :: ta) (prefixByte b :: tb)) := by
  rw [cmpV_cross ha hb hp]
  rw [show cmpStr (prefixByte a :: ta) (prefixByte b :: tb)
      = cmpStr [prefixByte a] [prefixByte b] from cmpStr_single_ne _ _ hp]

theorem cmp_agree : ∀ (n : Nat) (a b : Value), vw a + vw b ≤ n →
    wfB a = true → wfB b = true →
    ∀ ea eb, encode a = some ea → encode b = some eb →
    cmpV a b = some (cmpStr ea eb) := by
  intro n
  induction n using Nat.strong_induction_on with
  | _ n ih =>
    intro a b hle hwa hwb ea eb hea heb
    by_cases hab : a = b
    · subst hab
      rw [hea] at heb
      obtain rfl : ea = eb := Option.some.inj heb
      rw [cmpV_refl, cmpStr_refl]
    · cases a <;> cases b
      all_goals try (rw [wfB_min] at hwa; exact absurd hwa (by simp))
      all_goals try (rw [wfB_max] at hwa; exact absurd hwa (by simp))
      all_goals try (rw [wfB_undef] at hwa; exact absurd hwa (by simp))
      all_goals try (rw [wfB_min] at hwb; exact absurd hwb (by simp))
      all_goals try (rw [wfB_max] at hwb; exact absurd hwb (by simp))
      all_goals try (rw [wfB_undef] at hwb; exact absurd hwb (by simp))
      all_goals try (exact absurd rfl hab)
      all_goals try (
        obtain ⟨ta, rfl⟩ := encode_head hea
        obtain ⟨tb, rfl⟩ := encode_head heb
        apply cross_helper <;> first
          | decide
          | (simp [prefixByte]; done))
      · rename_i x y
        rw [encode_bool] at hea heb
        obtain rfl : ea = 103 :: boolBody x := by injection hea with h; exact h.symm
        obtain rfl : eb = 103 :: boolBody y := by injection heb with h; exact h.symm
        rw [cmpV_bool, cmpStr_cons_same]
        cases x <;> cases y
        · exact absurd rfl hab
        · decide
        · decide
        · exact absurd rfl hab
      · rename_i m1 m2
        rw [encode_num] at hea heb
        obtain rfl : ea = 101 :: elenEncode m1 := by injection hea with h; exact h.symm
        obtain rfl : eb = 101 :: elenEncode m2 := by injection heb with h; exact h.symm
        rw [cmpV_num, cmpStr_cons_same, elen_cmp]
      · rename_i s1 s2
        rw [encode_str] at hea heb
        obtain rfl : ea = 102 :: s1 := by injection hea with h; exact h.symm
        obtain rfl : eb = 102 :: s2 := by injection heb with h; exact h.symm
        rw [cmpV_str, cmpStr_cons_same]
      · rename_i as bs
        have hne : as ≠ bs := fun h => hab (by rw [h])
        obtain ⟨fa, hfa, rfl⟩ := encode_arr_some.mp hea
        obtain ⟨fb, hfb, rfl⟩ := encode_arr_some.mp heb
        rw [cmpV_arr_ne hne, cmpStr_cons_same]
        rw [wfB_arr] at hwa hwb
        refine cmpL_frames as bs fa fb ?_ hfa hfb
        intro x hx y hy ex ey hex hey
        have hvx := vw_lt_of_mem_arr hx
        have hvy := vw_lt_of_mem_arr hy
        exact ih (vw x + vw y) (by omega) x y le_rfl (wfL_mem hwa hx) (wfL_mem hwb hy)
          ex ey hex hey
      · rename_i aes bes
        have hne : aes ≠ bes := fun h => hab (by rw [h])
        obtain ⟨fa, hfa, rfl⟩ := encode_obj_some.mp hea
        obtain ⟨fb, hfb, rfl⟩ := encode_obj_some.mp heb
        rw [cmpV_obj_ne hne, cmpStr_cons_same]
        rw [wfB_obj, Bool.and_eq_true] at hwa hwb
        refine cmpE_frames (sortByKey aes) (sortByKey bes) fa fb ?_ hfa hfb
        intro e1 h1 e2 h2 x y hx hy
        obtain ⟨k1, v1⟩ := e1
        obtain ⟨k2, v2⟩ := e2
        have h1' := mem_sortByKey.mp h1
        have h2' := mem_sortByKey.mp h2
        have hv1 := vw_lt_of_mem_obj h1'
        have hv2 := vw_lt_of_mem_obj h2'
        exact ih (vw v1 + vw v2) (by omega) v1 v2 le_rfl (wfE_mem hwa.2 h1')
          (wfE_mem hwb.2 h2') x y hx hy

/-! ## Round-trip: decoding an encoded value yields its canonical form -/

theorem canon_null : canon .null = .null := by rw [canon.eq_def]

theorem canon_bool (b : Bool) : canon (.bool b) = .bool b := by rw [canon.eq_def]

theorem canon_num (n : Int) : canon (.num n) = .num n := by rw [canon.eq_def]

theorem canon_str (s : List Nat) : canon (.str s) = .str s := by rw [canon.eq_def]

theorem canon_arr (vs : List Value) : canon (.arr vs) = .arr (canonL vs) := by
  rw [canon.eq_def]

theorem canon_obj (es : List Entry) : canon (.obj es) = .obj (canonE (sortByKey es)) := by
  rw [canon.eq_def]

theorem canonL_nil : canonL [] = [] := by rw [canonL.eq_def]

theorem canonL_cons (v : Value) (vs : List Value) :
    canonL (v :: vs) = canon v :: canonL vs := by rw [canonL.eq_def]

theorem canonE_nil : canonE [] = [] := by rw [canonE.eq_def]

theorem canonE_cons (k : List Nat) (v : Value) (es : List Entry) :
    canonE ((k, v) :: es) = (k, canon v) :: canonE es := by rw [canonE.eq_def]

theorem decode_nil : decode [] = none := by rw [decode.eq_def]

theorem decode_cons_0 (rest : List Nat) : decode (0 :: rest) = some .null := by
  rw [decode.eq_def]; norm_num

theorem decode_cons_98 (rest : List Nat) : decode (98 :: rest) = some .null := by
  rw [decode.eq_def]; norm_num

theorem decode_cons_99 (rest : List Nat) :
    decode (99 :: rest) =
      match decodeItems rest with
      | none => none
      | some items => some (.obj (buildObjFold [] (chunk2 items))) := by
  rw [decode.eq_def]; norm_num

theorem decode_cons_100 (rest : List Nat) :
    decode (100 :: rest) =
      match decodeItems rest with
      | none => none
      | some items => some (.arr items) := by
  rw [decode.eq_def]; norm_num

theorem decode_cons_101 (rest : List Nat) :
    decode (101 :: rest) =
      match elenDecode rest with
      | none => none
      | some n => some (.num n) := by
  rw [decode.eq_def]; norm_num

theorem decode_cons_102 (rest : List Nat) : decode (102 :: rest) = some (.str rest) := by
  rw [decode.eq_def]; norm_num

theorem decode_cons_103 (rest : List Nat) :
    decode (103 :: rest) =
      match boolParse rest with
      | none => none
      | some b => some (.bool b) := by
  rw [decode.eq_def]; norm_num

theorem decode_cons_255 (rest : List Nat) : decode (255 :: rest) = some .null := by
  rw [decode.eq_def]; norm_num

theorem decodeItems_of_none {s : List Nat} (h : splitFrame s = none) :
    decodeItems s = some [] := by
  rw [decodeItems.eq_def]
  split
  · rfl
  · rename_i f r heq
    rw [h] at heq
    cases heq

theorem decodeItems_of_some {s f r : List Nat} (h : splitFrame s = some (f, r)) :
    decodeItems s =
      match decode (unescape f) with
      | none => none
      | some v =>
          match decodeItems r with
          | none => none
          | some vs => some (v :: vs) := by
  rw [decodeItems.eq_def]
  split
  · rename_i heq
    rw [h] at heq
    cases heq
  · rename_i f' r' heq
    rw [h] at heq
    injection heq with heq'
    obtain ⟨rfl, rfl⟩ := Prod.mk.injEq .. ▸ heq'
    rfl

/-- Frame-by-frame round trip, tolerating trailing bytes after the final
    complete frame: the decoder's scan finds no terminator in the trailing
    part and returns exactly the decoded complete frames. -/
theorem decodeItems_frames_junk : ∀ (vs : List Value) (body junk : List Nat),
    (∀ v ∈ vs, ∀ e, encode v = some e → decode e = some (canon v)) →
    encodeFrames vs = some body → splitFrame junk = none →
    decodeItems (body ++ junk) = some (canonL vs) := by
  intro vs
  induction vs with
  | nil =>
    intro body junk H hbody hjunk
    rw [encodeFrames_nil] at hbody
    obtain rfl : body = [] := by injection hbody with h; exact h.symm
    rw [List.nil_append, decodeItems_of_none hjunk, canonL_nil]
  | cons v vs ih =>
    intro body junk H hbody hjunk
    obtain ⟨e, rest, he, hrest, rfl⟩ := encodeFrames_cons_some.mp hbody
    rw [List.append_assoc, List.cons_append]
    rw [decodeItems_of_some (splitFrame_escFlat e (rest ++ junk))]
    rw [unescape_escFlat, H v (List.mem_cons_self _ _) e he]
    rw [ih rest junk (fun x hx => H x (List.mem_cons_of_mem _ hx)) hrest hjunk]
    rw [canonL_cons]

theorem canonL_flattenEntries (l : List Entry) :
    canonL (flattenEntries l) = flattenEntries (canonE l) := by
  induction l with
  | nil => rw [canonE_nil, show flattenEntries [] = [] from rfl, canonL_nil]
  | cons e l ih =>
    obtain ⟨k, v⟩ := e
    rw [show flattenEntries ((k, v) :: l) = .str k :: v :: flattenEntries l from rfl,
      canonL_cons, canonL_cons, ih, canon_str, canonE_cons]
    rfl

theorem chunk2_flattenEntries (l : List Entry) :
    chunk2 (flattenEntries l) = l.map (fun e => [Value.str e.1, e.2]) := by
  induction l with
  | nil => rfl
  | cons e l ih =>
    obtain ⟨k, v⟩ := e
    rw [show flattenEntries ((k, v) :: l) = .str k :: v :: flattenEntries l from rfl]
    rw [show chunk2 (Value.str k :: v :: flattenEntries l)
        = [Value.str k, v] :: chunk2 (flattenEntries l) from rfl, ih]
    rfl

theorem objAssign_fresh : ∀ (acc : List Entry) (k : List Nat) (v : Value),
    (∀ e ∈ acc, e.1 ≠ k) → objAssign acc k v = acc ++ [(k, v)] := by
  intro acc k v h
  induction acc with
  | nil => rfl
  | cons e acc ih =>
    obtain ⟨k0, v0⟩ := e
    rw [objAssign, if_neg (h (k0, v0) (List.mem_cons_self _ _)),
      ih (fun x hx => h x (List.mem_cons_of_mem _ hx))]
    rfl

theorem nodupKeys_cons (k : List Nat) (v : Value) (t : List Entry) :
    nodupKeys ((k, v) :: t) = (t.all (fun e => decide (e.1 ≠ k)) && nodupKeys t) := rfl

theorem buildObjFold_fresh : ∀ (l : List Entry) (acc : List Entry),
    (∀ e ∈ l, ∀ e2 ∈ acc, e2.1 ≠ e.1) → nodupKeys l = true →
    buildObjFold acc (l.map (fun e => [Value.str e.1, e.2])) = acc ++ l := by
  intro l
  induction l with
  | nil => intro acc _ _; simp [buildObjFold]
  | cons e l ih =>
    obtain ⟨k, v⟩ := e
    intro acc hfresh hnd
    rw [nodupKeys_cons, Bool.and_eq_true] at hnd
    rw [List.map_cons]
    rw [show buildObjFold acc ([Value.str k, v] :: l.map (fun e => [Value.str e.1, e.2]))
        = buildObjFold (objAssign acc (keyBytes (.str k)) v)
            (l.map (fun e => [Value.str e.1, e.2])) from rfl]
    rw [show keyBytes (.str k) = k from rfl]
    rw [objAssign_fresh acc k v
      (fun e2 he2 => hfresh (k, v) (List.mem_cons_self _ _) e2 he2)]
    rw [ih (acc ++ [(k, v)]) ?_ hnd.2]
    · simp
    · intro e he e2 he2
      rcases List.mem_append.mp he2 with h2 | h2
      · exact hfresh e (List.mem_cons_of_mem _ he) e2 h2
      · obtain rfl : e2 = (k, v) := by simpa using h2
        have h3 : e.1 ≠ k := by simpa using List.all_eq_true.mp hnd.1 e he
        exact fun hh => h3 hh.symm

theorem canonE_all_keys (k : List Nat) : ∀ l : List Entry,
    (canonE l).all (fun e => decide (e.1 ≠ k)) = l.all (fun e => decide (e.1 ≠ k)) := by
  intro l
  induction l with
  | nil => rw [canonE_nil]
  | cons e l ih =>
    obtain ⟨k0, v0⟩ := e
    rw [canonE_cons, List.all_cons, List.all_cons, ih]

theorem nodupKeys_canonE : ∀ l : List Entry, nodupKeys (canonE l) = nodupKeys l := by
  intro l
  induction l with
  | nil => rw [canonE_nil]
  | cons e l ih =>
    obtain ⟨k0, v0⟩ := e
    rw [canonE_cons, nodupKeys_cons, nodupKeys_cons, ih, canonE_all_keys]

theorem nodupKeys_iff_pairwise {l : List Entry} :
    nodupKeys l = true ↔ List.Pairwise (fun e1 e2 : Entry => e1.1 ≠ e2.1) l := by
  induction l with
  | nil => simp [nodupKeys]
  | cons e l ih =>
    obtain ⟨k, v⟩ := e
    rw [nodupKeys_cons, Bool.and_eq_true, List.pairwise_cons, ih]
    simp only [List.all_eq_true, decide_eq_true_eq]
    constructor
    · rintro ⟨h1, h2⟩
      exact ⟨fun e2 he2 => Ne.symm (h1 e2 he2), h2⟩
    · rintro ⟨h1, h2⟩
      exact ⟨fun e2 he2 => Ne.symm (h1 e2 he2), h2⟩

theorem nodupKeys_perm {l1 l2 : List Entry} (h : List.Perm l1 l2) :
    nodupKeys l1 = nodupKeys l2 := by
  by_cases h1 : nodupKeys l1 = true
  · have := (nodupKeys_iff_pairwise.mp h1).perm h (fun hxy => Ne.symm hxy)
    rw [h1, (nodupKeys_iff_pairwise.mpr this)]
  · by_cases h2 : nodupKeys l2 = true
    · have := (nodupKeys_iff_pairwise.mp h2).perm h.symm (fun hxy => Ne.symm hxy)
      exact absurd (nodupKeys_iff_pairwise.mpr this) h1
    · rw [Bool.not_eq_true] at h1 h2
      rw [h1, h2]

theorem decode_encode : ∀ (n : Nat) (v : Value), vw v ≤ n → wfB v = true →
    ∀ e, encode v = some e → decode e = some (canon v) := by
  intro n
  induction n using Nat.strong_induction_on with
  | _ n ih =>
    intro v hle hwf e he
    cases v with
    | null =>
      rw [encode_null] at he
      obtain rfl : e = [98] := by injection he with h; exact h.symm
      rw [decode_cons_98, canon_null]
    | bool b =>
      rw [encode_bool] at he
      obtain rfl : e = 103 :: boolBody b := by injection he with h; exact h.symm
      rw [decode_cons_103, canon_bool]
      cases b <;> rfl
    | num m =>
      rw [encode_num] at he
      obtain rfl : e = 101 :: elenEncode m := by injection he with h; exact h.symm
      rw [decode_cons_101, elen_roundtrip, canon_num]
    | str s =>
      rw [encode_str] at he
      obtain rfl : e = 102 :: s := by injection he with h; exact h.symm
      rw [decode_cons_102, canon_str]
    | min => rw [wfB_min] at hwf; simp at hwf
    | max => rw [wfB_max] at hwf; simp at hwf
    | undef => rw [wfB_undef] at hwf; simp at hwf
    | arr vs =>
      rw [wfB_arr] at hwf
      obtain ⟨body, hbody, rfl⟩ := encode_arr_some.mp he
      rw [decode_cons_100]
      have := decodeItems_frames_junk vs body [] ?_ hbody rfl
      · rw [List.append_nil] at this
        rw [this, canon_arr]
      · intro x hx ex hex
        exact ih (vw x) (lt_of_lt_of_le (vw_lt_of_mem_arr hx) hle) x le_rfl
          (wfL_mem hwf hx) ex hex
    | obj es =>
      rw [wfB_obj, Bool.and_eq_true] at hwf
      obtain ⟨body, hbody, rfl⟩ := encode_obj_some.mp he
      rw [decode_cons_99]
      have hitems := decodeItems_frames_junk (flattenEntries (sortByKey es)) body [] ?_
        hbody rfl
      · rw [List.append_nil] at hitems
        rw [hitems]
        have hred : (match some (canonL (flattenEntries (sortByKey es))) with
            | none => none
            | some items => some (Value.obj (buildObjFold [] (chunk2 items))))
            = some (Value.obj
                (buildObjFold [] (chunk2 (canonL (flattenEntries (sortByKey es)))))) := rfl
        rw [hred, canonL_flattenEntries, chunk2_flattenEntries]
        have hnd : nodupKeys (canonE (sortByKey es)) = true := by
          rw [nodupKeys_canonE, nodupKeys_perm (sortByKey_perm es)]
          exact hwf.1
        rw [buildObjFold_fresh (canonE (sortByKey es)) [] (by intro e he e2 he2; simp at he2)
          hnd]
        rw [List.nil_append, canon_obj]
      · intro x hx ex hex
        rcases mem_flattenEntries.mp hx with ⟨k, v, _, rfl⟩ | ⟨k, hm⟩
        · rw [encode_str] at hex
          obtain rfl : ex = 102 :: k := by injection hex with h; exact h.symm
          rw [decode_cons_102, canon_str]
        · have hm' := mem_sortByKey.mp hm
          exact ih (vw x) (lt_of_lt_of_le (vw_lt_of_mem_obj hm') hle) x le_rfl
            (wfE_mem hwf.2 hm') ex hex

/-! ## Deep equality against the canonical form -/

theorem deepEq_arr (as bs : List Value) : deepEq (.arr as) (.arr bs) = deepEqL as bs := by
  rw [deepEq.eq_def]

theorem deepEq_obj (aes bes : List Entry) :
    deepEq (.obj aes) (.obj bes) = ((aes.length == bes.length) && deepEqObj aes bes) := by
  rw [deepEq.eq_def]

theorem deepEq_beqV_null : deepEq .null .null = true := by
  rw [deepEq.eq_def]; exact (beqV_iff _ _).mpr rfl

theorem deepEq_beqV_bool (b : Bool) : deepEq (.bool b) (.bool b) = true := by
  rw [deepEq.eq_def]; exact (beqV_iff _ _).mpr rfl

theorem deepEq_beqV_num (n : Int) : deepEq (.num n) (.num n) = true := by
  rw [deepEq.eq_def]; exact (beqV_iff _ _).mpr rfl

theorem deepEq_beqV_str (s : List Nat) : deepEq (.str s) (.str s) = true := by
  rw [deepEq.eq_def]; exact (beqV_iff _ _).mpr rfl

theorem deepEq_beqV_min : deepEq .min .min = true := by
  rw [deepEq.eq_def]; exact (beqV_iff _ _).mpr rfl

theorem deepEq_beqV_max : deepEq .max .max = true := by
  rw [deepEq.eq_def]; exact (beqV_iff _ _).mpr rfl

theorem deepEq_beqV_undef : deepEq .undef .undef = true := by
  rw [deepEq.eq_def]; exact (beqV_iff _ _).mpr rfl

theorem deepEqL_nil : deepEqL [] [] = true := by rw [deepEqL.eq_def]

theorem deepEqL_cons (a : Value) (as : List Value) (b : Value) (bs : List Value) :
    deepEqL (a :: as) (b :: bs) = (deepEq a b && deepEqL as bs) := by
  rw [deepEqL.eq_def]

theorem deepEqObj_nil (bes : List Entry) : deepEqObj [] bes = true := by
  rw [deepEqObj.eq_def]

theorem deepEqObj_cons_some {k : List Nat} {v w : Value} {t bes : List Entry}
    (hw : lookupKey k bes = some w) :
    deepEqObj ((k, v) :: t) bes = (deepEq v w && deepEqObj t bes) := by
  rw [deepEqObj.eq_def]
  split
  · rename_i heq
    exact absurd heq (by simp)
  · rename_i k2 v2 t2 heq
    rw [List.cons.injEq, Prod.mk.injEq] at heq
    obtain ⟨⟨rfl, rfl⟩, rfl⟩ := heq
    rw [hw]

theorem lookupKey_of_mem_nodup : ∀ {l : List Entry} {k : List Nat} {v : Value},
    nodupKeys l = true → (k, v) ∈ l → lookupKey k l = some v := by
  intro l
  induction l with
  | nil => intro k v _ hm; simp at hm
  | cons e l ih =>
    obtain ⟨k0, v0⟩ := e
    intro k v hnd hm
    rw [nodupKeys_cons, Bool.and_eq_true] at hnd
    rcases List.mem_cons.mp hm with heq | hm2
    · obtain ⟨rfl, rfl⟩ := Prod.mk.injEq .. ▸ heq
      rw [lookupKey, if_pos rfl]
    · have hne : k0 ≠ k := by
        have := List.all_eq_true.mp hnd.1 (k, v) hm2
        simp at this
        exact fun hh => this hh.symm
      rw [lookupKey, if_neg hne]
      exact ih hnd.2 hm2

theorem mem_canonE_of_mem : ∀ {l : List Entry} {k : List Nat} {v : Value},
    (k, v) ∈ l → (k, canon v) ∈ canonE l := by
  intro l
  induction l with
  | nil => intro k v hm; simp at hm
  | cons e l ih =>
    obtain ⟨k0, v0⟩ := e
    intro k v hm
    rw [canonE_cons]
    rcases List.mem_cons.mp hm with heq | hm2
    · obtain ⟨rfl, rfl⟩ := Prod.mk.injEq .. ▸ heq
      exact List.mem_cons_self _ _
    · exact List.mem_cons_of_mem _ (ih hm2)

theorem canonE_length (l : List Entry) : (canonE l).length = l.length := by
  induction l with
  | nil => rw [canonE_nil]
  | cons e l ih =>
    obtain ⟨k, v⟩ := e
    rw [canonE_cons, List.length_cons, List.length_cons, ih]

theorem deepEqObj_of_lookup : ∀ (l target : List Entry),
    (∀ k v, (k, v) ∈ l → ∃ w, lookupKey k target = some w ∧ deepEq v w = true) →
    deepEqObj l target = true := by
  intro l target H
  induction l with
  | nil => rw [deepEqObj_nil]
  | cons e l ih =>
    obtain ⟨k, v⟩ := e
    obtain ⟨w, hw, hdeep⟩ := H k v (List.mem_cons_self _ _)
    rw [deepEqObj_cons_some hw, hdeep, Bool.true_and]
    exact ih (fun k2 v2 hm => H k2 v2 (List.mem_cons_of_mem _ hm))

theorem deepEqL_canonL : ∀ vs : List Value,
    (∀ v ∈ vs, deepEq v (canon v) = true) → deepEqL vs (canonL vs) = true := by
  intro vs H
  induction vs with
  | nil => rw [canonL_nil, deepEqL_nil]
  | cons v vs ih =>
    rw [canonL_cons, deepEqL_cons, H v (List.mem_cons_self _ _), Bool.true_and]
    exact ih (fun x hx => H x (List.mem_cons_of_mem _ hx))

theorem deepEq_canon : ∀ (n : Nat) (v : Value), vw v ≤ n → wfB v = true →
    deepEq v (canon v) = true := by
  intro n
  induction n using Nat.strong_induction_on with
  | _ n ih =>
    intro v hle hwf
    cases v with
    | null => rw [canon_null, deepEq_beqV_null]
    | bool b => rw [canon_bool, deepEq_beqV_bool]
    | num m => rw [canon_num, deepEq_beqV_num]
    | str s => rw [canon_str, deepEq_beqV_str]
    | min => rw [wfB_min] at hwf; simp at hwf
    | max => rw [wfB_max] at hwf; simp at hwf
    | undef => rw [wfB_undef] at hwf; simp at hwf
    | arr vs =>
      rw [wfB_arr] at hwf
      rw [canon_arr, deepEq_arr]
      exact deepEqL_canonL vs (fun x hx =>
        ih (vw x) (lt_of_lt_of_le (vw_lt_of_mem_arr hx) hle) x le_rfl (wfL_mem hwf hx))
    | obj es =>
      rw [wfB_obj, Bool.and_eq_true] at hwf
      rw [canon_obj, deepEq_obj]
      have hlen : (canonE (sortByKey es)).length = es.length := by
        rw [canonE_length, (sortByKey_perm es).length_eq]
      rw [hlen]
      simp only [beq_self_eq_true, Bool.true_and]
      have hnd : nodupKeys (canonE (sortByKey es)) = true := by
        rw [nodupKeys_canonE, nodupKeys_perm (sortByKey_perm es)]
        exact hwf.1
      refine deepEqObj_of_lookup es (canonE (sortByKey es)) ?_
      intro k v hm
      refine ⟨canon v, ?_, ?_⟩
      · exact lookupKey_of_mem_nodup hnd (mem_canonE_of_mem (mem_sortByKey.mpr hm))
      · exact ih (vw v) (lt_of_lt_of_le (vw_lt_of_mem_obj hm) hle) v le_rfl
          (wfE_mem hwf.2 hm)

/-! ## Uniqueness of the sorted entry list under permutation -/

theorem cmpStr_nil_ne_one (l : List Nat) : cmpStr [] l ≠ 1 := by
  cases l <;> simp [cmpStr]

theorem cmpStr_trans_le : ∀ a b c : List Nat,
    cmpStr a b ≠ 1 → cmpStr b c ≠ 1 → cmpStr a c ≠ 1 := by
  intro a
  induction a with
  | nil => intro b c _ _; exact cmpStr_nil_ne_one c
  | cons x as ih =>
    intro b c h1 h2
    cases b with
    | nil => exact absurd rfl h1
    | cons y bs =>
      cases c with
      | nil => exact absurd rfl h2
      | cons z cs =>
        rcases Nat.lt_trichotomy x y with hxy | hxy | hxy
        · rcases Nat.lt_trichotomy y z with hyz | hyz | hyz
          · rw [cmpStr_lt _ _ _ _ (by omega)]; norm_num
          · subst hyz; rw [cmpStr_lt _ _ _ _ hxy]; norm_num
          · rcases Nat.lt_trichotomy x z with hxz | hxz | hxz
            · rw [cmpStr_lt _ _ _ _ hxz]; norm_num
            · subst hxz; rw [cmpStr_gt _ _ _ _ hyz] at h2; exact absurd rfl h2
            · rw [cmpStr_gt _ _ _ _ hyz] at h2; exact absurd rfl h2
        · subst hxy
          rcases Nat.lt_trichotomy x z with hxz | hxz | hxz
          · rw [cmpStr_lt _ _ _ _ hxz]; norm_num
          · subst hxz
            rw [cmpStr_cons_same] at h1 h2 ⊢
            exact ih bs cs h1 h2
          · rw [cmpStr_gt _ _ _ _ hxz] at h2; exact absurd rfl h2
        · rw [cmpStr_gt _ _ _ _ hxy] at h1; exact absurd rfl h1

/-- The key order used to state sortedness of `sortByKey`'s output. -/
def keyLE (e1 e2 : Entry) : Prop := cmpStr e1.1 e2.1 ≠ 1

/-- The strict key order (used for uniqueness of the sorted entry list when
    keys are pairwise distinct). -/
def keyLT (e1 e2 : Entry) : Prop := cmpStr e1.1 e2.1 = -1

instance : IsAntisymm Entry keyLT where
  antisymm a b h1 h2 := absurd h1 (by rw [keyLT, cmpStr_swap, h2]; norm_num)

theorem mem_insertByKey {x e : Entry} {l : List Entry} :
    x ∈ insertByKey e l ↔ x = e ∨ x ∈ l :=
  ((insertByKey_perm e l).mem_iff).trans List.mem_cons

theorem insertByKey_pairwise {e : Entry} {l : List Entry}
    (hl : List.Pairwise keyLE l) : List.Pairwise keyLE (insertByKey e l) := by
  induction l with
  | nil => simp [insertByKey, List.pairwise_cons]
  | cons e0 rest ih =>
    rw [List.pairwise_cons] at hl
    rw [insertByKey]
    split
    · rename_i hgt
      rw [List.pairwise_cons]
      constructor
      · intro x hx
        rcases mem_insertByKey.mp hx with rfl | hx2
        · rw [keyLE, cmpStr_swap, hgt]
          norm_num
        · exact hl.1 x hx2
      · exact ih hl.2
    · rename_i hle
      rw [List.pairwise_cons]
      constructor
      · intro x hx
        rcases List.mem_cons.mp hx with rfl | hx2
        · exact hle
        · exact cmpStr_trans_le _ _ _ hle (hl.1 x hx2)
      · exact List.pairwise_cons.mpr hl


theorem sortByKey_pairwise : ∀ l : List Entry, List.Pairwise keyLE (sortByKey l) := by
  intro l
  induction l with
  | nil => simp [sortByKey]
  | cons e rest ih => exact insertByKey_pairwise ih

theorem sortByKey_pairwise_strict {l : List Entry} (hnd : nodupKeys l = true) :
    List.Pairwise keyLT (sortByKey l) := by
  have h1 := sortByKey_pairwise l
  have hnds : nodupKeys (sortByKey l) = true := by
    rw [nodupKeys_perm (sortByKey_perm l)]
    exact hnd
  have h2 : List.Pairwise (fun e1 e2 : Entry => e1.1 ≠ e2.1) (sortByKey l) :=
    nodupKeys_iff_pairwise.mp hnds
  refine (h1.and h2).imp ?_
  intro a b hab
  rcases cmpStr_cases a.1 b.1 with h | h | h
  · exact h
  · exact absurd (cmpStr_eq_zero_iff _ _ |>.mp h) hab.2
  · exact absurd h hab.1

theorem sortByKey_eq_of_perm {l1 l2 : List Entry} (hperm : List.Perm l1 l2)
    (hnd : nodupKeys l1 = true) : sortByKey l1 = sortByKey l2 := by
  have hnd2 : nodupKeys l2 = true := (nodupKeys_perm hperm) ▸ hnd
  refine List.eq_of_perm_of_sorted ?_ (sortByKey_pairwise_strict hnd)
    (sortByKey_pairwise_strict hnd2)
  exact (sortByKey_perm l1).trans (hperm.trans (sortByKey_perm l2).symm)

theorem cmpE_refl : ∀ l : List Entry, cmpE l l = some 0 := by
  intro l
  induction l with
  | nil => rw [cmpE_nil_left]; simp [cmpNat]
  | cons e l ih =>
    obtain ⟨k, v⟩ := e
    rw [cmpE_cons_cons, if_neg (by simp [cmpStr_refl]), cmpV_refl]
    simpa using ih

/-! ## Remaining helpers for the claims -/

/-- First non-zero result of a list of component comparisons, with a default
    (the loop-then-length-comparison shape of `ArrayEncoding.compare`). -/
def firstNonZeroAux : List Int → Int → Int
  | [], d => d
  | x :: xs, d => if x ≠ 0 then x else firstNonZeroAux xs d

theorem cmpV_total {a b : Value} (ha : wfB a = true) (hb : wfB b = true) :
    ∃ d, cmpV a b = some d := by
  obtain ⟨ea, hea⟩ := encode_total (vw a) a le_rfl ha
  obtain ⟨eb, heb⟩ := encode_total (vw b) b le_rfl hb
  exact ⟨_, cmp_agree (vw a + vw b) a b le_rfl ha hb ea eb hea heb⟩

theorem cmpNat_succ_succ (m k : Nat) : cmpNat (m + 1) (k + 1) = cmpNat m k := by
  simp [cmpNat, Nat.succ_lt_succ_iff]

theorem cmpL_spec : ∀ as bs : List Value, wfL as = true → wfL bs = true →
    cmpL as bs =
      some (firstNonZeroAux (List.zipWith (fun a b => (cmpV a b).getD 0) as bs)
        (cmpNat as.length bs.length)) := by
  intro as
  induction as with
  | nil =>
    intro bs _ _
    rw [cmpL_nil_left]
    rfl
  | cons a as ih =>
    intro bs hwa hwb
    cases bs with
    | nil => rw [cmpL_nil_right]; rfl
    | cons b bs =>
      rw [wfL_cons, Bool.and_eq_true] at hwa hwb
      obtain ⟨d, hd⟩ := cmpV_total hwa.1 hwb.1
      rw [cmpL_cons_cons, hd]
      rw [show (match some d with
          | none => none
          | some d2 => if d2 ≠ 0 then some d2 else cmpL as bs)
        = (if d ≠ 0 then some d else cmpL as bs) from rfl]
      rw [List.zipWith_cons_cons, hd]
      rw [show ((some d).getD 0 : Int) = d from rfl]
      rw [show firstNonZeroAux (d :: List.zipWith (fun a b => (cmpV a b).getD 0) as bs)
          (cmpNat (a :: as).length (b :: bs).length)
        = if d ≠ 0 then d
          else firstNonZeroAux (List.zipWith (fun a b => (cmpV a b).getD 0) as bs)
            (cmpNat (a :: as).length (b :: bs).length) from rfl]
      rw [show cmpNat (a :: as).length (b :: bs).length = cmpNat as.length bs.length from
        cmpNat_succ_succ as.length bs.length]
      by_cases hd0 : d = 0
      · subst hd0
        rw [if_neg (by norm_num), if_neg (by norm_num)]
        exact ih bs hwa.2 hwb.2
      · rw [if_pos hd0, if_pos hd0]

theorem encodeFrames_append : ∀ (as cs : List Value) (f : List Nat),
    encodeFrames (as ++ cs) = some f →
    ∃ fa fc, encodeFrames as = some fa ∧ encodeFrames cs = some fc ∧ f = fa ++ fc := by
  intro as
  induction as with
  | nil =>
    intro cs f h
    exact ⟨[], f, encodeFrames_nil, h, rfl⟩
  | cons a as ih =>
    intro cs f h
    rw [List.cons_append] at h
    obtain ⟨e, rest, he, hrest, rfl⟩ := encodeFrames_cons_some.mp h
    obtain ⟨fa, fc, hfa, hfc, rfl⟩ := ih cs rest hrest
    refine ⟨escFlat e ++ 0 :: fa, fc, ?_, hfc, by simp⟩
    exact encodeFrames_cons_some.mpr ⟨e, fa, he, hfa, rfl⟩

theorem canonL_append : ∀ xs ys : List Value, canonL (xs ++ ys) = canonL xs ++ canonL ys := by
  intro xs ys
  induction xs with
  | nil => rw [List.nil_append, canonL_nil, List.nil_append]
  | cons x xs ih => rw [List.cons_append, canonL_cons, canonL_cons, ih, List.cons_append]

theorem chunk2_flattenEntries_odd (x : Value) : ∀ l : List Entry,
    chunk2 (flattenEntries l ++ [x]) = l.map (fun e => [Value.str e.1, e.2]) ++ [[x]] := by
  intro l
  induction l with
  | nil => rfl
  | cons e l ih =>
    obtain ⟨k, v⟩ := e
    rw [show flattenEntries ((k, v) :: l) = .str k :: v :: flattenEntries l from rfl]
    rw [List.cons_append, List.cons_append]
    rw [show chunk2 (Value.str k :: v :: (flattenEntries l ++ [x]))
        = [Value.str k, v] :: chunk2 (flattenEntries l ++ [x]) from rfl, ih]
    rfl

theorem buildObjFold_append : ∀ (c1 c2 : List (List Value)) (acc : List Entry),
    buildObjFold acc (c1 ++ c2) = buildObjFold (buildObjFold acc c1) c2 := by
  intro c1
  induction c1 with
  | nil => intro c2 acc; rfl
  | cons c c1 ih =>
    intro c2 acc
    rw [List.cons_append]
    match c with
    | [k, v] =>
      rw [show buildObjFold acc ([k, v] :: (c1 ++ c2))
          = buildObjFold (objAssign acc (keyBytes k) v) (c1 ++ c2) from rfl, ih]
      rfl
    | [k] =>
      rw [show buildObjFold acc ([k] :: (c1 ++ c2))
          = buildObjFold (objAssign acc (keyBytes k) .undef) (c1 ++ c2) from rfl, ih]
      rfl
    | [] =>
      rw [show buildObjFold acc ([] :: (c1 ++ c2)) = buildObjFold acc (c1 ++ c2) from rfl, ih]
      rfl
    | _ :: _ :: _ :: _ =>
      rw [show buildObjFold acc ((_ :: _ :: _ :: _) :: (c1 ++ c2))
          = buildObjFold acc (c1 ++ c2) from rfl, ih]
      rfl

theorem firstNonZeroAux_self (as : List Value) :
    firstNonZeroAux (List.zipWith (fun a b => (cmpV a b).getD 0) as as)
      (cmpNat as.length as.length) = 0 := by
  induction as with
  | nil => simp [firstNonZeroAux, cmpNat]
  | cons a as ih =>
    rw [List.zipWith_cons_cons, cmpV_refl]
    rw [show firstNonZeroAux (((some (0 : Int)).getD 0) :: List.zipWith
        (fun a b => (cmpV a b).getD 0) as as) (cmpNat (a :: as).length (a :: as).length)
      = firstNonZeroAux (List.zipWith (fun a b => (cmpV a b).getD 0) as as)
        (cmpNat (a :: as).length (a :: as).length) from by rw [firstNonZeroAux]; simp]
    rw [List.length_cons, cmpNat_succ_succ]
    exact ih

theorem canonE_keys_mem : ∀ {l : List Entry} {e : Entry},
    e ∈ canonE l → ∃ v, (e.1, v) ∈ l := by
  intro l
  induction l with
  | nil => intro e h; rw [canonE_nil] at h; simp at h
  | cons e0 l ih =>
    obtain ⟨k0, v0⟩ := e0
    intro e h
    rw [canonE_cons] at h
    rcases List.mem_cons.mp h with rfl | h2
    · exact ⟨v0, List.mem_cons_self _ _⟩
    · obtain ⟨v, hv⟩ := ih h2
      exact ⟨v, List.mem_cons_of_mem _ hv⟩

theorem encode_obj_eq (es : List Entry) :
    encode (.obj es) =
      match encodeFrames (flattenEntries (sortByKey es)) with
      | none => none
      | some body => some (99 :: body) := by
  rw [encode.eq_def]

/-! ## The claims -/

/-- C1: for every pair of representable (non-sentinel) values, the in-memory
    comparison `jsonCodec.compare(a, b)` equals the sign of the byte-wise
    lexicographic comparison of `jsonCodec.encode(a)` and
    `jsonCodec.encode(b)`. -/
theorem C1_order_agreement (a b : Value) (ha : wfB a = true) (hb : wfB b = true)
    (ea eb : List Nat) (hea : encode a = some ea) (heb : encode b = some eb) :
    cmpV a b = some (cmpStr ea eb) :=
  cmp_agree (vw a + vw b) a b le_rfl ha hb ea eb hea heb

/-- C2: decoding the encoding of any representable non-sentinel value yields
    a value deep-equal to the original. -/
theorem C2_round_trip (v : Value) (h : wfB v = true) (e : List Nat)
    (he : encode v = some e) :
    ∃ w, decode e = some w ∧ deepEq v w = true :=
  ⟨canon v, decode_encode (vw v) v le_rfl h e he, deepEq_canon (vw v) v le_rfl h⟩

/-- C3: the array comparator returns the first non-zero result of comparing
    parallel elements, and the comparison of the lengths when all parallel
    elements compare equal (so equal-length tuples compare by their first
    differing component and a proper prefix compares less). -/
theorem C3_array_compare (as bs : List Value)
    (ha : wfB (.arr as) = true) (hb : wfB (.arr bs) = true) :
    cmpV (.arr as) (.arr bs) =
      some (firstNonZeroAux (List.zipWith (fun a b => (cmpV a b).getD 0) as bs)
        (cmpNat as.length bs.length)) := by
  by_cases hab : as = bs
  · subst hab
    rw [cmpV_refl, firstNonZeroAux_self]
  · rw [cmpV_arr_ne hab]
    rw [wfB_arr] at ha hb
    exact cmpL_spec as bs ha hb

/-- C4: two objects with the same key/value entries, in any insertion order,
    have identical encodings and compare equal. -/
theorem C4_object_canonical (es1 es2 : List Entry) (hnd : nodupKeys es1 = true)
    (hperm : List.Perm es1 es2) :
    encode (.obj es1) = encode (.obj es2) ∧ cmpV (.obj es1) (.obj es2) = some 0 := by
  have hsort := sortByKey_eq_of_perm hperm hnd
  constructor
  · rw [encode_obj_eq, encode_obj_eq, hsort]
  · by_cases heq : Value.obj es1 = Value.obj es2
    · rw [heq, cmpV_refl]
    · rw [cmpV_obj_ne (fun hh => heq (by rw [hh])), hsort, cmpE_refl]

/-- C5: if one array is a proper prefix of another, its encoding is strictly
    smaller byte-wise; in particular dropping the last element of a non-empty
    array strictly decreases the encoding. -/
theorem C5_array_prefix_less (as cs : List Value) (hcs : cs ≠ [])
    (e1 e2 : List Nat) (h1 : encode (.arr as) = some e1)
    (h2 : encode (.arr (as ++ cs)) = some e2) :
    cmpStr e1 e2 = -1 := by
  obtain ⟨f1, hf1, rfl⟩ := encode_arr_some.mp h1
  obtain ⟨f2, hf2, rfl⟩ := encode_arr_some.mp h2
  obtain ⟨fa, fc, hfa, hfc, rfl⟩ := encodeFrames_append as cs f2 hf2
  obtain rfl : f1 = fa := Option.some.inj (hf1.symm.trans hfa)
  cases cs with
  | nil => exact absurd rfl hcs
  | cons c cs2 =>
    obtain ⟨ec, restc, hec, hrestc, rfl⟩ := encodeFrames_cons_some.mp hfc
    rw [cmpStr_cons_same]
    cases hE : escFlat ec with
    | nil =>
      rw [List.nil_append]
      exact cmpStr_append_right f1 0 restc
    | cons x xs =>
      rw [List.cons_append]
      exact cmpStr_append_right f1 x (xs ++ 0 :: restc)

/-- C6: the MIN sentinel compares strictly below and the MAX sentinel
    strictly above every representable non-sentinel value. -/
theorem C6_sentinel_bounds (v : Value) (h : wfB v = true) :
    cmpV .min v = some (-1) ∧ cmpV .max v = some 1 := by
  cases v
  all_goals try (rw [wfB_min] at h; exact absurd h (by simp))
  all_goals try (rw [wfB_max] at h; exact absurd h (by simp))
  all_goals try (rw [wfB_undef] at h; exact absurd h (by simp))
  all_goals exact
    ⟨by rw [cmpV_cross (by simp) (by simp) (by simp [prefixByte])]
        simp only [prefixByte]
        decide,
     by rw [cmpV_cross (by simp) (by simp) (by simp [prefixByte])]
        simp only [prefixByte]
        decide⟩

/-- C7: the escaped form of any byte string contains `0x00` only as the
    second byte of an escape pair, and therefore the appended terminator is
    the first unescaped `0x00` the decoder's scan finds: the scan returns
    exactly the escaped element and the remainder after the terminator. -/
theorem C7_escape_unambiguous (s rest : List Nat) :
    bareZeroFree (escape s) = true ∧
    splitFrame (escape s ++ 0 :: rest) = some (escape s, rest) := by
  rw [escape_eq_escFlat]
  exact ⟨bareZeroFree_escFlat s, splitFrame_escFlat s rest⟩

/-- C8: array decoding of a body with trailing bytes after the final
    unescaped terminator (no further complete frame, including a dangling
    escape byte) does not fail: it returns exactly the elements of the
    complete frames and ignores the trailing content. -/
theorem C8_trailing_bytes (vs : List Value) (body junk : List Nat)
    (hw : wfB (.arr vs) = true) (hbody : encodeFrames vs = some body)
    (hjunk : splitFrame junk = none) :
    decode (100 :: (body ++ junk)) = some (.arr (canonL vs)) := by
  rw [wfB_arr] at hw
  have hitems := decodeItems_frames_junk vs body junk
    (fun v hv e he => decode_encode (vw v) v le_rfl (wfL_mem hw hv) e he) hbody hjunk
  rw [decode_cons_100, hitems]

/-- C9: the default `jsonCodec` produces exactly the byte strings claimed for
    null, `true`, `"hello world"`, `["chet", "corcos"]`, and
    `{"date": "2020-03-10"}` (flat object form). -/
theorem C9_concrete_encodings :
    encode .null = some [98] ∧
    encode (.bool true) = some [103, 116, 114, 117, 101] ∧
    encode (.str [104, 101, 108, 108, 111, 32, 119, 111, 114, 108, 100]) =
      some [102, 104, 101, 108, 108, 111, 32, 119, 111, 114, 108, 100] ∧
    encode (.arr [.str [99, 104, 101, 116], .str [99, 111, 114, 99, 111, 115]]) =
      some [100, 102, 99, 104, 101, 116, 0, 102, 99, 111, 114, 99, 111, 115, 0] ∧
    encode (.obj [([100, 97, 116, 101],
        .str [50, 48, 50, 48, 45, 48, 51, 45, 49, 48])]) =
      some [99, 102, 100, 97, 116, 101, 0,
        102, 50, 48, 50, 48, 45, 48, 51, 45, 49, 48, 0] := by
  refine ⟨encode_null, ?_, encode_str _, ?_, ?_⟩
  · rw [encode_bool]; rfl
  · simp [encode, encodeFrames, escape, esc1, esc2]
  · simp [encode, encodeFrames, escape, esc1, esc2, sortByKey, insertByKey, flattenEntries]

/-- C10: when a flat object body decodes to an odd number of elements, object
    decoding does not fail: every complete key/value pair becomes an entry
    and the final unpaired key is present, mapped to `undefined`. -/
theorem C10_odd_object_decode (pairs : List Entry) (klast : List Nat) (body : List Nat)
    (hw : ∀ e ∈ pairs, wfB e.2 = true)
    (hnd : nodupKeys pairs = true)
    (hklast : ∀ e ∈ pairs, e.1 ≠ klast)
    (hbody : encodeFrames (flattenEntries pairs ++ [.str klast]) = some body) :
    decode (99 :: body) = some (.obj (canonE pairs ++ [(klast, .undef)])) := by
  have Hdec : ∀ v ∈ flattenEntries pairs ++ [.str klast], ∀ e, encode v = some e →
      decode e = some (canon v) := by
    intro v hv e he
    rcases List.mem_append.mp hv with hv1 | hv2
    · rcases mem_flattenEntries.mp hv1 with ⟨k, v2, _, rfl⟩ | ⟨k, hm⟩
      · rw [encode_str] at he
        obtain rfl : e = 102 :: k := by injection he with hh; exact hh.symm
        rw [decode_cons_102, canon_str]
      · exact decode_encode (vw v) v le_rfl (hw (k, v) hm) e he
    · obtain rfl : v = .str klast := by simpa using hv2
      rw [encode_str] at he
      obtain rfl : e = 102 :: klast := by injection he with hh; exact hh.symm
      rw [decode_cons_102, canon_str]
  have hitems := decodeItems_frames_junk (flattenEntries pairs ++ [.str klast]) body []
    Hdec hbody rfl
  rw [List.append_nil] at hitems
  rw [decode_cons_99, hitems]
  rw [show (match some (canonL (flattenEntries pairs ++ [Value.str klast])) with
      | none => none
      | some items => some (Value.obj (buildObjFold [] (chunk2 items))))
    = some (Value.obj (buildObjFold []
        (chunk2 (canonL (flattenEntries pairs ++ [Value.str klast]))))) from rfl]
  rw [canonL_append, canonL_flattenEntries,
    show canonL [Value.str klast] = [Value.str klast] from by
      rw [canonL_cons, canonL_nil, canon_str]]
  rw [chunk2_flattenEntries_odd (Value.str klast) (canonE pairs)]
  rw [buildObjFold_append]
  rw [buildObjFold_fresh (canonE pairs) [] (by intro e he e2 he2; simp at he2)
    (by rw [nodupKeys_canonE]; exact hnd)]
  rw [List.nil_append]
  rw [show buildObjFold (canonE pairs) [[Value.str klast]]
      = objAssign (canonE pairs) (keyBytes (Value.str klast)) Value.undef from rfl]
  rw [show keyBytes (Value.str klast) = klast from rfl]
  rw [objAssign_fresh (canonE pairs) klast Value.undef ?_]
  intro e he
  obtain ⟨v, hv⟩ := canonE_keys_mem he
  exact hklast (e.1, v) hv

/-! ## Witnesses -/

theorem C1_order_agreement_witness :
    cmpV (.arr [.str [0]]) (.obj [([97], .null)]) =
      some (cmpStr [100, 102, 1, 0, 0] [99, 102, 97, 0, 98, 0]) :=
  C1_order_agreement (.arr [.str [0]]) (.obj [([97], .null)])
    (by simp [wfB_arr, wfL_cons, wfL_nil, wfB_str])
    (by simp [wfB_obj, wfE_cons, wfE_nil, wfB_null, nodupKeys])
    [100, 102, 1, 0, 0] [99, 102, 97, 0, 98, 0]
    (by simp [encode, encodeFrames, escape, esc1, esc2])
    (by simp [encode, encodeFrames, escape, esc1, esc2, sortByKey, insertByKey,
      flattenEntries])

theorem C2_round_trip_witness :
    ∃ w, decode [99, 102, 97, 0, 102, 1, 1, 0, 102, 98, 0, 98, 0] = some w ∧
      deepEq (.obj [([98], .null), ([97], .str [1])]) w = true :=
  C2_round_trip (.obj [([98], .null), ([97], .str [1])])
    (by simp [wfB_obj, wfE_cons, wfE_nil, wfB_null, wfB_str, nodupKeys])
    [99, 102, 97, 0, 102, 1, 1, 0, 102, 98, 0, 98, 0]
    (by simp [encode, encodeFrames, escape, esc1, esc2, sortByKey, insertByKey,
      flattenEntries, cmpStr])

theorem C3_array_compare_witness :
    cmpV (.arr [.null]) (.arr [.null, .bool true]) =
      some (firstNonZeroAux
        (List.zipWith (fun a b => (cmpV a b).getD 0) [.null] [.null, .bool true])
        (cmpNat [Value.null].length [Value.null, Value.bool true].length)) :=
  C3_array_compare [.null] [.null, .bool true]
    (by simp [wfB_arr, wfL_cons, wfL_nil, wfB_null])
    (by simp [wfB_arr, wfL_cons, wfL_nil, wfB_null, wfB_bool])

theorem C4_object_canonical_witness :
    encode (.obj [([98], .null), ([97], .bool true)]) =
        encode (.obj [([97], .bool true), ([98], .null)]) ∧
      cmpV (.obj [([98], .null), ([97], .bool true)])
        (.obj [([97], .bool true), ([98], .null)]) = some 0 :=
  C4_object_canonical [([98], .null), ([97], .bool true)]
    [([97], .bool true), ([98], .null)]
    (by simp [nodupKeys])
    (List.Perm.swap ([97], Value.bool true) ([98], Value.null) [])

theorem C5_array_prefix_less_witness :
    cmpStr [100, 98, 0] [100, 98, 0, 98, 0] = -1 :=
  C5_array_prefix_less [.null] [.null] (by simp)
    [100, 98, 0] [100, 98, 0, 98, 0]
    (by simp [encode, encodeFrames, escape, esc1, esc2])
    (by simp [encode, encodeFrames, escape, esc1, esc2])

theorem C6_sentinel_bounds_witness :
    cmpV .min .null = some (-1) ∧ cmpV .max .null = some 1 :=
  C6_sentinel_bounds .null wfB_null

theorem C8_trailing_bytes_witness :
    decode (100 :: ([102, 65, 0] ++ [1])) = some (.arr (canonL [.str [65]])) :=
  C8_trailing_bytes [.str [65]] [102, 65, 0] [1]
    (by simp [wfB_arr, wfL_cons, wfL_nil, wfB_str])
    (by simp [encodeFrames, encode, escape, esc1, esc2])
    (by rw [splitFrame.eq_def]; norm_num)

theorem C10_odd_object_decode_witness :
    decode (99 :: [102, 97, 0, 102, 120, 0, 102, 98, 0]) =
      some (.obj (canonE [([97], .str [120])] ++ [([98], .undef)])) :=
  C10_odd_object_decode [([97], .str [120])] [98]
    [102, 97, 0, 102, 120, 0, 102, 98, 0]
    (by intro e he
        simp only [List.mem_singleton] at he
        rw [he]
        exact wfB_str _)
    (by simp [nodupKeys])
    (by intro e he
        simp only [List.mem_singleton] at he
        rw [he]
        simp)
    (by simp [encodeFrames, encode, escape, esc1, esc2, flattenEntries])

end Lexicodec
